import Mathlib

/-!
# The CPU OpenMP 2.0 thread accelerator (`alpaka/accs/omp/omp2/threads/Acc.hpp`)

A shallow embedding of `AccCpuOmp2Threads<TDim>` and of its trait specialisations.

* Machine integers (`UInt`, the component type of `Vec<TDim>`) are natural numbers below
  `2 ^ w`; arithmetic on them reduces modulo `2 ^ w`.
* A pointer is the address (a natural number) of the first byte of a buffer.
* A block is a team of `T` OpenMP threads with thread numbers `0 .. T-1` that all run the same
  straight-line kernel body.  The body is a list of statements, every thread has a program
  counter, and a schedule (a list of thread numbers) decides which thread takes the next step.
  A thread enters `#pragma omp barrier` and leaves it only when every thread of the team has
  entered it; every interleaving of the steps of the threads is a schedule, and memory is
  sequentially consistent.
-/

namespace Alpaka

/-! ## Vectors, work division, accelerator object -/

/-- The type `Vec<TDim>`: exactly `N` unsigned components. -/
abbrev Vec (N : Nat) := Fin N → Nat

/-- The vector `Vec<TDim>::all(v)`: every component is `v`. -/
def Vec.all {N : Nat} (v : Nat) : Vec N := fun _ => v

/-- The vector `Vec<TDim>::zeros()`. -/
def Vec.zeros {N : Nat} : Vec N := Vec.all 0

/-- Component-wise product of two vectors of `w`-bit unsigned integers. -/
def Vec.mul {N : Nat} (w : Nat) (a b : Vec N) : Vec N := fun k => (a k * b k) % 2 ^ w

/-- Component-wise sum of two vectors of `w`-bit unsigned integers. -/
def Vec.add {N : Nat} (w : Nat) (a b : Vec N) : Vec N := fun k => (a k + b k) % 2 ^ w

/-- The query axis of `getIdx` and `getWorkDiv`. -/
inductive Origin
  | Grid
  | Block
  | Thread
  deriving DecidableEq, Repr

/-- The query granularity of `getIdx` and `getWorkDiv`. -/
inductive UnitTag
  | Blocks
  | Threads
  | Elems
  deriving DecidableEq, Repr

/-- Modelled from the spec: `workdiv::BasicWorkDiv<TDim>` (`alpaka/core/BasicWorkDiv.hpp` is not
part of the sources at hand).  Three extent vectors: grid extent in blocks, block extent in
threads, thread extent in elements. -/
structure BasicWorkDiv (N : Nat) where
  gridBlockExtent : Vec N
  blockThreadExtent : Vec N
  threadElemExtent : Vec N

/-- The data members of `AccCpuOmp2Threads<TDim>` (with the work division of its base class).
`m_vvuiSharedMem` holds the owned buffers in the order of their creation, every buffer by its
address; `m_vuiExternalSharedMem` is `none` for a null `unique_ptr`. -/
structure AccCpuOmp2Threads (N : Nat) where
  workDiv : BasicWorkDiv N
  m_vuiGridBlockIdx : Vec N
  m_vvuiSharedMem : List Nat
  m_vuiExternalSharedMem : Option Nat

/-- The constructor `AccCpuOmp2Threads(workDiv)`: the work division is copied, the block index is
`Vec<TDim>::zeros()`, the two remaining members are default-constructed. -/
def AccCpuOmp2Threads.ctor {N : Nat} (workDiv : BasicWorkDiv N) : AccCpuOmp2Threads N :=
  { workDiv := workDiv
    m_vuiGridBlockIdx := Vec.zeros
    m_vvuiSharedMem := []
    m_vuiExternalSharedMem := none }

/-! ## Index and work-division queries -/

/-- Modelled from the spec: `workdiv::getWorkDiv<TOrigin, TUnit>` on a `BasicWorkDiv`
(`alpaka/core/BasicWorkDiv.hpp`, `alpaka/traits/WorkDiv.hpp` are not part of the sources at
hand).  The extent of `TUnit` within `TOrigin`; the extent of the grid in threads is the
component-wise product of the grid extent in blocks and the block extent in threads.  A pair
without a meaning has no trait specialisation, hence `none`. -/
def workdiv.getWorkDiv {N : Nat} (w : Nat) (o : Origin) (u : UnitTag) (wd : BasicWorkDiv N) :
    Option (Vec N) :=
  match o, u with
  | .Grid, .Blocks => some wd.gridBlockExtent
  | .Block, .Threads => some wd.blockThreadExtent
  | .Thread, .Elems => some wd.threadElemExtent
  | .Grid, .Threads => some (Vec.mul w wd.gridBlockExtent wd.blockThreadExtent)
  | _, _ => none

/-- Modelled from the spec: `idx::getIdx<TOrigin, TUnit>` on an `IdxOmp<TDim>`
(`alpaka/accs/omp/Idx.hpp`, `alpaka/traits/Idx.hpp` are not part of the sources at hand).
`gridBlockIdx` is the block index the `IdxOmp` refers to, `blockThreadIdx` the index of the
calling thread within its block (derived from the OpenMP thread number).  The index of the thread
in the grid is the block index times the block extent in threads plus the index of the thread in
the block, component-wise. -/
def idx.getIdx {N : Nat} (w : Nat) (o : Origin) (u : UnitTag) (gridBlockIdx blockThreadIdx : Vec N)
    (wd : BasicWorkDiv N) : Option (Vec N) :=
  match o, u with
  | .Grid, .Blocks => some gridBlockIdx
  | .Block, .Threads => some blockThreadIdx
  | .Grid, .Threads =>
      some (Vec.add w (Vec.mul w gridBlockIdx wd.blockThreadExtent) blockThreadIdx)
  | _, _ => none

/-- The member `getIdx<TOrigin, TUnit>()`: forwards to `idx::getIdx` with the `IdxOmp` base (which
refers to `m_vuiGridBlockIdx`) and the `BasicWorkDiv` base.  `tidx` maps the OpenMP thread number
of the caller to its index within the block. -/
def AccCpuOmp2Threads.getIdx {N : Nat} (w : Nat) (tidx : Nat → Vec N) (o : Origin) (u : UnitTag)
    (acc : AccCpuOmp2Threads N) (tid : Nat) : Option (Vec N) :=
  idx.getIdx w o u acc.m_vuiGridBlockIdx (tidx tid) acc.workDiv

/-- The member `getWorkDiv<TOrigin, TUnit>()`: forwards to `workdiv::getWorkDiv` with the
`BasicWorkDiv` base. -/
def AccCpuOmp2Threads.getWorkDiv {N : Nat} (w : Nat) (o : Origin) (u : UnitTag)
    (acc : AccCpuOmp2Threads N) : Option (Vec N) :=
  workdiv.getWorkDiv w o u acc.workDiv

/-- The member `getBlockSharedExternMem<T>()`: the address held by `m_vuiExternalSharedMem`
(`0`, the null pointer, when nothing is bound). -/
def AccCpuOmp2Threads.getBlockSharedExternMem {N : Nat} (acc : AccCpuOmp2Threads N) : Nat :=
  acc.m_vuiExternalSharedMem.getD 0

/-! ## Atomic operations -/

/-- Modelled from the spec: `atomic::atomicOp<TOp, T>` of the OpenMP atomic provider `AtomicOmp`
(`alpaka/accs/omp/Atomic.hpp` is not part of the sources at hand).  One indivisible
read-modify-write: the value at `addr` is replaced by `op old value` and the old value is
returned.  `mem` is the memory (address to value). -/
def atomic.atomicOp (op : Nat → Nat → Nat) (mem : Nat → Nat) (addr value : Nat) :
    Nat × (Nat → Nat) :=
  (mem addr, Function.update mem addr (op (mem addr) value))

/-- The member `atomicOp<TOp, T>(addr, value)`: forwards to `atomic::atomicOp<TOp, T>` with the
`AtomicOmp` base, here the parameter `provider`. -/
def AccCpuOmp2Threads.atomicOp {Op : Type} (provider : Op → (Nat → Nat) → Nat → Nat → Nat × (Nat → Nat))
    (op : Op) (mem : Nat → Nat) (addr value : Nat) : Nat × (Nat → Nat) :=
  provider op mem addr value

/-! ## A block: a team of OpenMP threads running one kernel body -/

/-- A value returned to a kernel thread by an accelerator operation. -/
inductive Val (N : Nat)
  | num (n : Nat)
  | vec (v : Option (Vec N))
  deriving DecidableEq

/-- The statements of a kernel body.  `barrier` is `#pragma omp barrier`;
`emplaceBackIfMaster bytes` is
`if(::omp_get_thread_num() == 0) m_vvuiSharedMem.emplace_back(new T[n])` with
`bytes = n * sizeof(T)`; `returnBack` is `return m_vvuiSharedMem.back().get()`.  The other
statements are calls of the remaining accelerator members and plain stores and loads of the
kernel (`store a v` writes `v` to the address `a tid`, `loadSum base n` reads the sum of the `n`
cells from `base` on). -/
inductive Instr (N : Nat)
  | barrier
  | emplaceBackIfMaster (bytes : Nat)
  | returnBack
  | getIdx (o : Origin) (u : UnitTag)
  | getWorkDiv (o : Origin) (u : UnitTag)
  | atomicOp (op : Nat → Nat → Nat) (addr value : Nat)
  | getBlockSharedExternMem
  | store (a : Nat → Nat) (v : Nat)
  | loadSum (base n : Nat)

/-- What a block runs in: the team size `T` (OpenMP thread numbers `0 .. T-1`), the bit width of
`UInt`, `operator new[]`, and the mapping of an OpenMP thread number to the index of the thread
within the block.  `operator new[]` is two functions of the live allocations (each an address
and a byte count) and of the byte count asked for: `bad_alloc` tells whether it throws
`std::bad_alloc`, `alloc` gives the address of the new buffer when it does not. -/
structure Env (N : Nat) where
  T : Nat
  w : Nat
  alloc : List (Nat × Nat) → Nat → Nat
  bad_alloc : List (Nat × Nat) → Nat → Bool
  tidx : Nat → Vec N

/-- The state of a block in execution: the accelerator object, the live allocations of the free
store, the memory, every thread with its program counter, whether it is inside a barrier (it has
entered `#pragma omp barrier` and not left it) and the values returned to it (by the position of
the returning statement), whether undefined behaviour has occurred (`back()` on an empty
vector), and whether `std::bad_alloc` has been thrown (nothing in the accelerator catches it). -/
structure BlockState (N : Nat) where
  acc : AccCpuOmp2Threads N
  heap : List (Nat × Nat)
  mem : Nat → Nat
  pc : Nat → Nat
  inBarrier : Nat → Bool
  rets : Nat → Nat → Option (Val N)
  ub : Bool
  thrown : Bool

/-- The allocation of a thread has thrown `std::bad_alloc`: nothing is appended and the thread
does not move on. -/
def BlockState.throwBadAlloc {N : Nat} (s : BlockState N) : BlockState N :=
  { s with thrown := true }

/-- Thread `i` enters the barrier at its program counter. -/
def BlockState.enter {N : Nat} (s : BlockState N) (i : Nat) : BlockState N :=
  { s with inBarrier := Function.update s.inBarrier i true }

/-- Thread `i` leaves the barrier it is in and moves on to its next statement. -/
def BlockState.leave {N : Nat} (s : BlockState N) (i : Nat) : BlockState N :=
  { s with
    inBarrier := Function.update s.inBarrier i false
    pc := Function.update s.pc i (s.pc i + 1) }

/-- Thread `i` moves on to its next statement. -/
def BlockState.advance {N : Nat} (s : BlockState N) (i : Nat) : BlockState N :=
  { s with pc := Function.update s.pc i (s.pc i + 1) }

/-- Thread `i` moves on to its next statement, the current one having returned `v`. -/
def BlockState.ret {N : Nat} (s : BlockState N) (i : Nat) (v : Val N) : BlockState N :=
  { s with
    pc := Function.update s.pc i (s.pc i + 1)
    rets := Function.update s.rets i (Function.update (s.rets i) (s.pc i) (some v)) }

/-- One step of thread `i` (its OpenMP thread number) at the statement `ins`.  A barrier takes two
steps: the thread enters it, and it leaves it once every thread of the team has entered it (is
inside it or has left it already).  `none`: the thread cannot move, it waits in the barrier for
the rest of the team.  Every other statement is one step; the allocation by the thread with
number 0 throws when `operator new[]` does, and then appends nothing and does not return. -/
def exec {N : Nat} (env : Env N) (ins : Instr N) (i : Nat) (s : BlockState N) :
    Option (BlockState N) :=
  match ins with
  | .barrier =>
      if s.inBarrier i = true then
        if ∀ j < env.T, s.pc i < s.pc j ∨ (s.pc j = s.pc i ∧ s.inBarrier j = true) then
          some (s.leave i)
        else none
      else some (s.enter i)
  | .emplaceBackIfMaster bytes =>
      if i = 0 then
        if env.bad_alloc s.heap bytes = true then some s.throwBadAlloc
        else
          let p := env.alloc s.heap bytes
          some ({ s with
            acc := { s.acc with m_vvuiSharedMem := s.acc.m_vvuiSharedMem ++ [p] }
            heap := (p, bytes) :: s.heap }.advance i)
      else some (s.advance i)
  | .returnBack =>
      match s.acc.m_vvuiSharedMem.getLast? with
      | some p => some (s.ret i (.num p))
      | none => some ({ s with ub := true }.advance i)
  | .getIdx o u => some (s.ret i (.vec (s.acc.getIdx env.w env.tidx o u i)))
  | .getWorkDiv o u => some (s.ret i (.vec (s.acc.getWorkDiv env.w o u)))
  | .atomicOp op addr value =>
      let r := AccCpuOmp2Threads.atomicOp (fun f => atomic.atomicOp f) op s.mem addr value
      some ({ s with mem := r.2 }.ret i (.num r.1))
  | .getBlockSharedExternMem => some (s.ret i (.num s.acc.getBlockSharedExternMem))
  | .store a v => some ({ s with mem := Function.update s.mem (a i) v }.advance i)
  | .loadSum base n => some (s.ret i (.num ((List.range n).map (fun j => s.mem (base + j))).sum))

/-- One step of thread `i` in the kernel body `prog`: `none` for a number outside the team, for
a thread that has run to the end of the body, and for a thread that waits in a barrier. -/
def step {N : Nat} (env : Env N) (prog : List (Instr N)) (i : Nat) (s : BlockState N) :
    Option (BlockState N) :=
  if i < env.T then
    match prog[s.pc i]? with
    | some ins => exec env ins i s
    | none => none
  else none

/-- The block under a schedule: the threads named by the schedule try a step one after the
other; a thread that cannot move leaves the state as it is. -/
def run {N : Nat} (env : Env N) (prog : List (Instr N)) : List Nat → BlockState N → BlockState N
  | [], s => s
  | i :: sched, s => run env prog sched ((step env prog i s).getD s)

/-- The block before its threads start: every program counter at the first statement, no thread
inside a barrier, nothing returned yet, nothing thrown. -/
def BlockState.start {N : Nat} (acc : AccCpuOmp2Threads N) (heap : List (Nat × Nat))
    (mem : Nat → Nat) : BlockState N :=
  { acc := acc, heap := heap, mem := mem, pc := fun _ => 0, inBarrier := fun _ => false,
    rets := fun _ _ => none, ub := false, thrown := false }

/-- Every thread of the team has run to the end of the kernel body. -/
def finished {N : Nat} (env : Env N) (prog : List (Instr N)) (s : BlockState N) : Prop :=
  ∀ i < env.T, prog.length ≤ s.pc i

instance {N : Nat} (env : Env N) (prog : List (Instr N)) (s : BlockState N) :
    Decidable (finished env prog s) := by
  unfold finished; infer_instance

/-! ## The members that are kernel bodies of several statements -/

/-- The member `syncBlockThreads()`: `#pragma omp barrier`. -/
def syncBlockThreads {N : Nat} : List (Instr N) := [.barrier]

/-- The member `allocBlockSharedMem<T, TuiNumElements>()`.  The `static_assert` rejects the
instantiation with zero elements when the kernel is built; otherwise the body is: barrier,
allocation by the thread with number 0, barrier, return of the last buffer of the vector. -/
def allocBlockSharedMem {N : Nat} (sizeofT TuiNumElements : Nat) : Except String (List (Instr N)) :=
  if TuiNumElements > 0 then
    .ok (syncBlockThreads ++ [.emplaceBackIfMaster (TuiNumElements * sizeofT)] ++ syncBlockThreads
      ++ [.returnBack])
  else
    .error "The number of elements to allocate in block shared memory must not be zero!"

/-- The bump allocator: the new buffer starts behind every live allocation. -/
def bumpAlloc (heap : List (Nat × Nat)) (_bytes : Nat) : Nat :=
  (heap.map (fun b => b.1 + b.2)).foldr max 0

/-- The round-robin schedule: `rounds` times the threads `0 .. T-1` in turn. -/
def roundRobin (T rounds : Nat) : List Nat :=
  (List.replicate rounds (List.range T)).flatten

/-! ## Invariants of a block in execution -/

/-- The effect of one statement executed by the thread with number 0 on the vector of buffers and
on the live allocations. -/
def masterEffect {N : Nat} (env : Env N) (st : List Nat × List (Nat × Nat)) :
    Instr N → List Nat × List (Nat × Nat)
  | .emplaceBackIfMaster bytes =>
      (st.1 ++ [env.alloc st.2 bytes], (env.alloc st.2 bytes, bytes) :: st.2)
  | _ => st

/-- The vector of buffers and the live allocations once the thread with number 0 has executed the
first `k` statements of `prog`, from `init`. -/
def masterState {N : Nat} (env : Env N) (prog : List (Instr N)) (k : Nat)
    (init : List Nat × List (Nat × Nat)) : List Nat × List (Nat × Nat) :=
  (prog.take k).foldl (masterEffect env) init

/-- The statements that touch `m_vvuiSharedMem` occur in a kernel body only as parts of the body
of `allocBlockSharedMem` (the member is private): a `returnBack` comes right after a barrier that
comes right after an allocating statement, and an allocating statement comes right after a
barrier. -/
def WellFormed {N : Nat} (prog : List (Instr N)) : Prop :=
  (∀ q, prog[q]? = some .returnBack →
    ∃ bytes, 2 ≤ q ∧ prog[q - 1]? = some .barrier ∧
      prog[q - 2]? = some (.emplaceBackIfMaster bytes)) ∧
  (∀ r bytes, prog[r]? = some (.emplaceBackIfMaster bytes) →
    1 ≤ r ∧ prog[r - 1]? = some .barrier)

/-- No thread has left a barrier that another thread of the team has not entered: whenever a
thread is past a barrier, every thread of the team is past it or inside it. -/
def BarrierInv {N : Nat} (env : Env N) (prog : List (Instr N)) (s : BlockState N) : Prop :=
  ∀ i < env.T, ∀ j < env.T, ∀ b < s.pc i, prog[b]? = some .barrier →
    b < s.pc j ∨ (s.pc j = b ∧ s.inBarrier j = true)

/-- The vector of buffers and the live allocations are what the thread with number 0 has made of
them so far. -/
def MasterInv {N : Nat} (env : Env N) (prog : List (Instr N)) (init : List Nat × List (Nat × Nat))
    (s : BlockState N) : Prop :=
  (s.acc.m_vvuiSharedMem, s.heap) = masterState env prog (s.pc 0) init

/-- No undefined behaviour so far, and every `returnBack` executed so far has returned the last
buffer of the vector as it was when the thread with number 0 arrived at the barrier before. -/
def RetsInv {N : Nat} (env : Env N) (prog : List (Instr N)) (init : List Nat × List (Nat × Nat))
    (s : BlockState N) : Prop :=
  s.ub = false ∧
  ∀ i < env.T, ∀ q < s.pc i, prog[q]? = some .returnBack →
    ∃ p, (masterState env prog (q - 1) init).1.getLast? = some p ∧ s.rets i q = some (.num p)

/-- The three invariants of a block in execution. -/
def Inv {N : Nat} (env : Env N) (prog : List (Instr N)) (init : List Nat × List (Nat × Nat))
    (s : BlockState N) : Prop :=
  BarrierInv env prog s ∧ MasterInv env prog init s ∧ RetsInv env prog init s

/-- Where a thread at position `k`, inside the barrier there (`w`) or not, is after one step at
the statement `ins`, when it can move. -/
def Instr.after {N : Nat} (ins : Instr N) (k : Nat) (w : Bool) : Nat × Bool :=
  match ins with
  | .barrier => if w then (k + 1, false) else (k, true)
  | _ => (k + 1, w)

/-- Every thread of the team is at position `k`, inside the barrier there (`w`) or not. -/
def Uniform {N : Nat} (env : Env N) (k : Nat) (w : Bool) (s : BlockState N) : Prop :=
  ∀ i < env.T, s.pc i = k ∧ s.inBarrier i = w

/-- No allocating statement of the kernel body throws: `operator new[]` succeeds for the request
of every allocating statement, with the live allocations as they are when the thread with
number 0 arrives at it. -/
def AllocOk {N : Nat} (env : Env N) (prog : List (Instr N)) (init : List Nat × List (Nat × Nat)) :
    Prop :=
  ∀ q bytes, prog[q]? = some (.emplaceBackIfMaster bytes) →
    env.bad_alloc (masterState env prog q init).2 bytes = false

/-- The free store never runs out: `operator new[]` never throws. -/
def NoBadAlloc {N : Nat} (env : Env N) : Prop :=
  ∀ heap bytes, env.bad_alloc heap bytes = false

/-- What a block that runs one call of `allocBlockSharedMem` cannot get past when the allocation
throws: the thread with number 0 stays at the allocating statement, no thread leaves the second
barrier, nothing is appended and nothing is returned. -/
def StuckInv {N : Nat} (env : Env N) (acc : AccCpuOmp2Threads N) (heap : List (Nat × Nat))
    (s : BlockState N) : Prop :=
  s.pc 0 ≤ 1 ∧ (∀ i < env.T, s.pc i ≤ 2) ∧ s.heap = heap ∧
    s.acc.m_vvuiSharedMem = acc.m_vvuiSharedMem ∧ ∀ i q, s.rets i q = none

/-! ## Call sites and the free store -/

/-- The call `allocBlockSharedMem<T, count>()` whose `return` statement is at position `q` of the
kernel body `prog`: its body occupies the positions `q - 3 .. q`. -/
def CallSite {N : Nat} (prog : List (Instr N)) (q sizeofT count : Nat) : Prop :=
  ∃ pre body post, allocBlockSharedMem sizeofT count = .ok body ∧
    prog = pre ++ body ++ post ∧ q = pre.length + 3

/-- `operator new[]` returns a fresh buffer: it overlaps no live allocation. -/
def FreshAlloc (alloc : List (Nat × Nat) → Nat → Nat) : Prop :=
  ∀ heap bytes, ∀ b ∈ heap, alloc heap bytes + bytes ≤ b.1 ∨ b.1 + b.2 ≤ alloc heap bytes

/-! ## Concrete inputs -/

/-- A one-dimensional work division: 3 blocks of 2 threads of 1 element. -/
def demoWorkDiv : BasicWorkDiv 1 :=
  { gridBlockExtent := Vec.all 3, blockThreadExtent := Vec.all 2, threadElemExtent := Vec.all 1 }

/-- A team of two threads, 64-bit `UInt`, the bump allocator on a free store that never runs
out, thread `t` at index `t`. -/
def demoEnv : Env 1 :=
  { T := 2, w := 64, alloc := bumpAlloc, bad_alloc := fun _ _ => false, tidx := fun t => Vec.all t }

/-- The same team on a free store of `2 ^ 40` bytes: `operator new[]` throws when the live
allocations and the request together exceed it. -/
def smallStoreEnv : Env 1 :=
  { T := 2, w := 64, alloc := bumpAlloc
    bad_alloc := fun heap bytes => decide (2 ^ 40 < (heap.map (fun b => b.2)).sum + bytes)
    tidx := fun t => Vec.all t }

/-- A block at its start: a fresh accelerator, one live allocation of 20 bytes at address 100,
zeroed memory. -/
def demoStart : BlockState 1 :=
  BlockState.start (AccCpuOmp2Threads.ctor demoWorkDiv) [(100, 20)] (fun _ => 0)

/-- A kernel body with two call sites `allocBlockSharedMem<T, 2>()`, `sizeof(T) = 4`, one after
the other. -/
def demoKernel : List (Instr 1) :=
  [.barrier, .emplaceBackIfMaster 8, .barrier, .returnBack,
   .barrier, .emplaceBackIfMaster 8, .barrier, .returnBack]

/-- The accelerator of block 2 of the demonstration work division. -/
def demoAcc : AccCpuOmp2Threads 1 :=
  { workDiv := demoWorkDiv
    m_vuiGridBlockIdx := Vec.all 2
    m_vvuiSharedMem := []
    m_vuiExternalSharedMem := none }

/-! ## Device properties and accelerator name -/

/-- The type `alpaka::acc::AccDevProps<TDim>`, its members in the order of the initialiser list
of `getAccDevProps`. -/
structure AccDevProps (N : Nat) where
  m_uiMultiProcessorCount : Nat
  m_uiBlockThreadsCountMax : Nat
  m_vuiBlockThreadExtentsMax : Vec N
  m_vuiGridBlockExtentsMax : Vec N

/-- The two routines of the OpenMP runtime that `getAccDevProps` calls, over the state `σ` of the
runtime. -/
structure OmpRuntime (σ : Type) where
  omp_set_num_threads : Int → σ → σ
  omp_get_max_threads : σ → Int

/-- The conversion `static_cast<UInt>(x)` of an `int` to the `w`-bit unsigned type. -/
def toUInt (w : Nat) (x : Int) : Nat := (x % 2 ^ w).toNat

/-- The probe for the maximal number of threads per block in `getAccDevProps`: `4u` when
`ALPAKA_INTEGRATION_TEST` is set, otherwise `omp_set_num_threads(1024)` followed by
`omp_get_max_threads()`.  Returns the value and the state of the runtime afterwards. -/
def probeBlockThreadsCountMax {σ : Type} (integrationTest : Bool) (w : Nat) (omp : OmpRuntime σ)
    (rt : σ) : Nat × σ :=
  if integrationTest then (4, rt)
  else
    let rt' := omp.omp_set_num_threads 1024 rt
    (toUInt w (omp.omp_get_max_threads rt'), rt')

/-- The trait `GetAccDevProps<AccCpuOmp2Threads<TDim>>::getAccDevProps(dev)`.  `w` is the bit
width of `Vec<TDim>::Val`, the device type is a parameter.  Returns the properties and the state
of the OpenMP runtime afterwards. -/
def getAccDevProps {N : Nat} {DevCpu σ : Type} (integrationTest : Bool) (w : Nat)
    (omp : OmpRuntime σ) (_dev : DevCpu) (rt : σ) : AccDevProps N × σ :=
  let uiBlockThreadsCountMax := (probeBlockThreadsCountMax integrationTest w omp rt).1
  ({ m_uiMultiProcessorCount := 1
     m_uiBlockThreadsCountMax := uiBlockThreadsCountMax
     m_vuiBlockThreadExtentsMax := Vec.all uiBlockThreadsCountMax
     m_vuiGridBlockExtentsMax := Vec.all (2 ^ w - 1) },
   (probeBlockThreadsCountMax integrationTest w omp rt).2)

/-- The function `std::to_string` of an unsigned integer: its decimal representation. -/
def to_string (n : Nat) : String := Nat.repr n

/-- The trait `GetAccName<AccCpuOmp2Threads<TDim>>::getAccName()`, `N` being `TDim::value`. -/
def getAccName (N : Nat) : String := "AccCpuOmp2Threads<" ++ to_string N ++ ">"

/-- An OpenMP runtime whose state is the number of threads of the next team: the request is
capped at 8 threads. -/
def demoOmp : OmpRuntime Nat :=
  { omp_set_num_threads := fun n _ => min n.toNat 8
    omp_get_max_threads := fun rt => rt }

/-- The number a string of decimal digits stands for. -/
def decimalValue (s : String) : Nat :=
  s.data.foldl (fun acc c => acc * 10 + (c.toNat - 48)) 0

/-! ## The barrier visibility kernel -/

/-- The kernel body `flags[tid] = 1; acc.syncBlockThreads(); sum(flags)` of a block of `T`
threads, the array `flags` at address `flags`. -/
def flagsKernel {N : Nat} (flags T : Nat) : List (Instr N) :=
  [.store (fun tid => flags + tid) 1] ++ syncBlockThreads ++ [.loadSum flags T]

/-- Every thread that has executed its store has left a 1 in its cell of `flags`. -/
def FlagsInv {N : Nat} (env : Env N) (flags : Nat) (s : BlockState N) : Prop :=
  ∀ j < env.T, 0 < s.pc j → s.mem (flags + j) = 1

/-- Every thread that has read the sum of `flags` has read `T`. -/
def FlagsRets {N : Nat} (env : Env N) (s : BlockState N) : Prop :=
  ∀ i < env.T, 2 < s.pc i → s.rets i 2 = some (.num env.T)

/-! ## The test kernel `KernelWithConstructorAndMember` -/

/-- The type `std::int32_t`. -/
abbrev Int32 := { v : Int // -2147483648 ≤ v ∧ v < 2147483648 }

/-- The class `KernelWithConstructorAndMember`: its one data member. -/
structure KernelWithConstructorAndMember where
  m_val : Int32

/-- The constructor `KernelWithConstructorAndMember(std::int32_t const val = 42)`; `none` is the
call without an argument. -/
def KernelWithConstructorAndMember.ctor (val : Option Int32) : KernelWithConstructorAndMember :=
  { m_val := val.getD ⟨42, by decide⟩ }

/-- The call operator `operator()(acc, success)`: `ALPAKA_CHECK(*success, 42 == m_val)`, the
accelerator being ignored.  The macro `ALPAKA_CHECK` is a parameter: from the flag before and the
value of the checked expression to the flag after.  Returns the flag `*success` after the
call. -/
def KernelWithConstructorAndMember.call {TAcc : Type} (ALPAKA_CHECK : Bool → Bool → Bool)
    (self : KernelWithConstructorAndMember) (_acc : TAcc) (success : Bool) : Bool :=
  ALPAKA_CHECK success (decide ((42 : Int) = self.m_val.1))

/-- A check macro: the flag is cleared when the expression is false and left as it is
otherwise. -/
def demoCheck (success expression : Bool) : Bool :=
  if !expression then false else success

/-- An accelerator with the external shared memory bound to the buffer at address 4096. -/
def demoAccExtern : AccCpuOmp2Threads 1 :=
  { workDiv := demoWorkDiv
    m_vuiGridBlockIdx := Vec.all 2
    m_vvuiSharedMem := [120]
    m_vuiExternalSharedMem := some 4096 }

/-! ## Steps and schedules -/

/-- A step lets the thread enter a barrier, or throws `std::bad_alloc`, or moves the program
counter of the thread on by one. -/
theorem exec_pc {N : Nat} {env : Env N} {ins : Instr N} {i : Nat} {s s' : BlockState N}
    (h : exec env ins i s = some s') :
    s' = s.enter i ∨ s' = s.throwBadAlloc ∨ s'.pc = Function.update s.pc i (s.pc i + 1) := by
  cases ins <;> simp only [exec] at h
  case barrier =>
    split at h
    · split at h
      · cases h; right; right; rfl
      · cases h
    · cases h; left; rfl
  case emplaceBackIfMaster bytes =>
    split at h
    · split at h
      · cases h; right; left; rfl
      · cases h; right; right; rfl
    · cases h; right; right; rfl
  case returnBack =>
    split at h <;> (cases h; right; right; rfl)
  all_goals (cases h; right; right; rfl)

theorem exec_master {N : Nat} {env : Env N} {ins : Instr N} {i : Nat} {s s' : BlockState N}
    (h : exec env ins i s = some s') (hpc : s'.pc = Function.update s.pc i (s.pc i + 1)) :
    (s'.acc.m_vvuiSharedMem, s'.heap) =
      if i = 0 then masterEffect env (s.acc.m_vvuiSharedMem, s.heap) ins
      else (s.acc.m_vvuiSharedMem, s.heap) := by
  cases ins <;> simp only [exec] at h
  case barrier =>
    split at h
    · split at h
      · cases h; simp [BlockState.leave, masterEffect]
      · cases h
    · cases h; simp [BlockState.enter, masterEffect]
  case emplaceBackIfMaster bytes =>
    split at h
    · split at h
      · cases h
        have := congrFun hpc i
        simp [BlockState.throwBadAlloc] at this
      · cases h; simp [BlockState.advance, masterEffect, *]
    · cases h; simp [BlockState.advance, masterEffect, *]
  case returnBack =>
    split at h <;> (cases h; simp [BlockState.advance, BlockState.ret, masterEffect])
  all_goals (cases h; simp [BlockState.advance, BlockState.ret, masterEffect])

/-- A step never removes or reorders buffers: the vector of buffers before is the vector after
or the vector after without its last entry. -/
theorem exec_arena {N : Nat} {env : Env N} {ins : Instr N} {i : Nat} {s s' : BlockState N}
    (h : exec env ins i s = some s') :
    s'.acc.m_vvuiSharedMem = s.acc.m_vvuiSharedMem ∨
      (i = 0 ∧ ∃ bytes, ins = .emplaceBackIfMaster bytes ∧ env.bad_alloc s.heap bytes = false ∧
        s'.acc.m_vvuiSharedMem = s.acc.m_vvuiSharedMem ++ [env.alloc s.heap bytes]) := by
  rcases exec_pc h with hent | hthr | hpc
  · subst hent; left; rfl
  · subst hthr; left; rfl
  · have hm := congrArg Prod.fst (exec_master h hpc)
    simp only at hm
    by_cases h0 : i = 0
    · simp only [h0, if_true] at hm
      by_cases hemp : ∃ bytes, ins = .emplaceBackIfMaster bytes
      · obtain ⟨bytes, rfl⟩ := hemp
        right
        refine ⟨h0, bytes, rfl, ?_, by simpa [masterEffect] using hm⟩
        subst h0
        simp only [exec, if_true] at h
        split at h
        · cases h
          have := congrFun hpc 0
          simp [BlockState.throwBadAlloc] at this
        · rename_i hb
          simpa using hb
      · left
        cases ins <;> first
          | simpa [masterEffect] using hm
          | exact absurd ⟨_, rfl⟩ hemp
    · simp only [h0, if_false] at hm
      left; exact hm

theorem step_some {N : Nat} {env : Env N} {prog : List (Instr N)} {i : Nat} {s s' : BlockState N}
    (h : step env prog i s = some s') :
    i < env.T ∧ ∃ ins, prog[s.pc i]? = some ins ∧ exec env ins i s = some s' := by
  unfold step at h
  split at h
  · rename_i hi
    split at h
    · rename_i ins hins
      exact ⟨hi, ins, hins, h⟩
    · cases h
  · cases h

theorem run_append {N : Nat} (env : Env N) (prog : List (Instr N)) (a b : List Nat)
    (s : BlockState N) : run env prog (a ++ b) s = run env prog b (run env prog a s) := by
  induction a generalizing s with
  | nil => rfl
  | cons i a ih => simp [run, ih]

/-- A property that holds at the start and is kept by every step holds after every schedule. -/
theorem run_induction {N : Nat} {env : Env N} {prog : List (Instr N)} (P : BlockState N → Prop)
    (hstep : ∀ s i s', P s → step env prog i s = some s' → P s')
    (sched : List Nat) (s : BlockState N) (h0 : P s) : P (run env prog sched s) := by
  induction sched generalizing s with
  | nil => exact h0
  | cons i sched ih =>
    simp only [run]
    apply ih
    cases hs : step env prog i s with
    | none => simpa using h0
    | some s' => simpa using hstep s i s' h0 hs

/-- A thread that leaves a barrier was inside it, and so was or had been every thread. -/
theorem exec_barrier {N : Nat} {env : Env N} {i : Nat} {s s' : BlockState N}
    (h : exec env .barrier i s = some s')
    (hpc : s'.pc = Function.update s.pc i (s.pc i + 1)) :
    ∀ j < env.T, s.pc i < s.pc j ∨ (s.pc j = s.pc i ∧ s.inBarrier j = true) := by
  simp only [exec] at h
  split at h
  · split at h
    · assumption
    · cases h
  · cases h
    have := congrFun hpc i
    simp [BlockState.enter] at this

theorem exec_rets_other {N : Nat} {env : Env N} {ins : Instr N} {i : Nat} {s s' : BlockState N}
    (h : exec env ins i s = some s') (i' q' : Nat) (hne : i' ≠ i ∨ q' ≠ s.pc i) :
    s'.rets i' q' = s.rets i' q' := by
  have key : ∀ (t : BlockState N) (v : Val N), t.rets = s.rets → t.pc = s.pc →
      (t.ret i v).rets i' q' = s.rets i' q' := by
    intro t v ht hp
    simp only [BlockState.ret, ht, hp]
    by_cases hi : i' = i
    · subst hi
      have hq : q' ≠ s.pc i' := by
        rcases hne with h1 | h1
        · exact absurd rfl h1
        · exact h1
      simp [Function.update_same, Function.update_noteq hq]
    · simp [Function.update_noteq hi]
  cases ins <;> simp only [exec] at h
  case barrier =>
    split at h
    · split at h
      · cases h; rfl
      · cases h
    · cases h; rfl
  case emplaceBackIfMaster bytes =>
    split at h
    · split at h <;> (cases h; rfl)
    · cases h; rfl
  case returnBack =>
    split at h
    · cases h; exact key s _ rfl rfl
    · cases h; rfl
  case store => cases h; rfl
  all_goals (cases h; exact key _ _ rfl rfl)

theorem exec_ub {N : Nat} {env : Env N} {ins : Instr N} {i : Nat} {s s' : BlockState N}
    (h : exec env ins i s = some s') (hne : ins ≠ .returnBack) : s'.ub = s.ub := by
  cases ins <;> simp only [exec] at h
  case barrier =>
    split at h
    · split at h
      · cases h; rfl
      · cases h
    · cases h; rfl
  case emplaceBackIfMaster bytes =>
    split at h
    · split at h <;> (cases h; rfl)
    · cases h; rfl
  case returnBack => exact absurd rfl hne
  all_goals (cases h; rfl)

theorem masterState_succ {N : Nat} (env : Env N) (prog : List (Instr N)) (k : Nat)
    (init : List Nat × List (Nat × Nat)) (ins : Instr N) (h : prog[k]? = some ins) :
    masterState env prog (k + 1) init = masterEffect env (masterState env prog k init) ins := by
  have hk : k < prog.length := by
    rcases Nat.lt_or_ge k prog.length with h1 | h1
    · exact h1
    · rw [List.getElem?_eq_none h1] at h; cases h
  have hget : prog[k] = ins := by
    rw [List.getElem?_eq_getElem hk] at h
    exact Option.some.inj h
  unfold masterState
  rw [List.take_succ, List.foldl_append, List.getElem?_eq_getElem hk]
  simp [hget]

theorem masterState_succ_none {N : Nat} (env : Env N) (prog : List (Instr N)) (k : Nat)
    (init : List Nat × List (Nat × Nat)) (h : prog[k]? = none) :
    masterState env prog (k + 1) init = masterState env prog k init := by
  unfold masterState
  rw [List.take_succ, h]
  simp

theorem masterState_zero {N : Nat} (env : Env N) (prog : List (Instr N))
    (init : List Nat × List (Nat × Nat)) : masterState env prog 0 init = init := by
  simp [masterState]

/-- The thread with number 0 changes neither the vector of buffers nor the live allocations
between two positions with no allocating statement in between. -/
theorem masterState_const {N : Nat} (env : Env N) (prog : List (Instr N))
    (init : List Nat × List (Nat × Nat)) (a b : Nat) (hab : a ≤ b)
    (hno : ∀ r, a ≤ r → r < b → ∀ bytes, prog[r]? ≠ some (.emplaceBackIfMaster bytes)) :
    masterState env prog b init = masterState env prog a init := by
  induction b with
  | zero =>
    have : a = 0 := by omega
    subst this; rfl
  | succ b ih =>
    rcases Nat.eq_or_lt_of_le hab with h1 | h1
    · rw [h1]
    · have hab' : a ≤ b := by omega
      have ih' := ih hab' (fun r h1 h2 => hno r h1 (by omega))
      cases hb : prog[b]? with
      | none => rw [masterState_succ_none env prog b init hb, ih']
      | some ins =>
        rw [masterState_succ env prog b init ins hb, ← ih']
        cases ins <;> simp only [masterEffect]
        case emplaceBackIfMaster bytes => exact absurd hb (hno b hab' (by omega) bytes)

theorem inv_start {N : Nat} (env : Env N) (prog : List (Instr N)) (acc : AccCpuOmp2Threads N)
    (heap : List (Nat × Nat)) (mem : Nat → Nat) :
    Inv env prog (acc.m_vvuiSharedMem, heap) (BlockState.start acc heap mem) := by
  refine ⟨?_, ?_, rfl, ?_⟩
  · intro i _ j _ b hb
    simp [BlockState.start] at hb
  · simp [MasterInv, BlockState.start, masterState_zero]
  · intro i _ q hq
    simp [BlockState.start] at hq

theorem exec_inBarrier_other {N : Nat} {env : Env N} {ins : Instr N} {i : Nat}
    {s s' : BlockState N} (h : exec env ins i s = some s') (j : Nat) (hj : j ≠ i) :
    s'.inBarrier j = s.inBarrier j := by
  cases ins <;> simp only [exec] at h
  case barrier =>
    split at h
    · split at h
      · cases h; simp [BlockState.leave, Function.update_noteq hj]
      · cases h
    · cases h; simp [BlockState.enter, Function.update_noteq hj]
  case emplaceBackIfMaster bytes =>
    split at h
    · split at h <;> (cases h; rfl)
    · cases h; rfl
  case returnBack =>
    split at h <;> (cases h; rfl)
  all_goals (cases h; rfl)

/-- Whenever a thread is past a barrier, every thread of the team has reached it. -/
theorem barrierInv_le {N : Nat} {env : Env N} {prog : List (Instr N)} {s : BlockState N}
    (hinv : BarrierInv env prog s) {i j b : Nat} (hi : i < env.T) (hj : j < env.T)
    (hb : b < s.pc i) (hbar : prog[b]? = some .barrier) : b ≤ s.pc j := by
  rcases hinv i hi j hj b hb hbar with h | ⟨h, -⟩ <;> omega

theorem barrierInv_step {N : Nat} {env : Env N} {prog : List (Instr N)} {i : Nat}
    {s s' : BlockState N} (hinv : BarrierInv env prog s) (h : step env prog i s = some s') :
    BarrierInv env prog s' := by
  obtain ⟨hi, ins, hins, hex⟩ := step_some h
  rcases exec_pc hex with hent | hthr | hpc
  · subst hent
    intro a ha j hj b hb hbar
    rcases hinv a ha j hj b hb hbar with h1 | ⟨h1, h2⟩
    · left; exact h1
    · right
      refine ⟨h1, ?_⟩
      simp only [BlockState.enter]
      by_cases hji : j = i
      · subst hji; simp
      · rw [Function.update_noteq hji]; exact h2
  · subst hthr; exact hinv
  · have hpci : s'.pc i = s.pc i + 1 := by rw [hpc]; simp
    have hpcj : ∀ j, j ≠ i → s'.pc j = s.pc j := by
      intro j hj; rw [hpc, Function.update_noteq hj]
    intro a ha j hj b hb hbar
    by_cases hji : j = i
    · subst hji
      left
      rw [hpci]
      by_cases haj : a = j
      · subst haj; omega
      · rw [hpcj a haj] at hb
        have := barrierInv_le hinv ha hj hb hbar
        omega
    · rw [hpcj j hji, exec_inBarrier_other hex j hji]
      by_cases hai : a = i
      · subst hai
        rw [hpci] at hb
        rcases Nat.lt_or_ge b (s.pc a) with h1 | h1
        · exact hinv a ha j hj b h1 hbar
        · have hbe : b = s.pc a := by omega
          subst hbe
          rw [hins] at hbar
          cases hbar
          exact exec_barrier hex hpc j hj
      · rw [hpcj a hai] at hb
        exact hinv a ha j hj b hb hbar

theorem masterInv_step {N : Nat} {env : Env N} {prog : List (Instr N)}
    {init : List Nat × List (Nat × Nat)} {i : Nat}
    {s s' : BlockState N} (hinv : MasterInv env prog init s) (h : step env prog i s = some s') :
    MasterInv env prog init s' := by
  obtain ⟨hi, ins, hins, hex⟩ := step_some h
  rcases exec_pc hex with hent | hthr | hpc
  · subst hent; exact hinv
  · subst hthr; exact hinv
  · have hm := exec_master hex hpc
    unfold MasterInv at *
    rw [hm, hpc]
    by_cases h0 : i = 0
    · subst h0
      simp only [if_true, Function.update_same]
      rw [masterState_succ env prog _ init ins hins, ← hinv]
    · have h0' : (0 : Nat) ≠ i := fun e => h0 e.symm
      simp only [h0, if_false, Function.update_noteq h0']
      exact hinv

/-- When a thread is about to return from `allocBlockSharedMem`, the vector of buffers is the one
the thread with number 0 left behind at the barrier just before. -/
theorem arena_at_return {N : Nat} {env : Env N} {prog : List (Instr N)}
    {init : List Nat × List (Nat × Nat)} (hwf : WellFormed prog) {s : BlockState N}
    (hb : BarrierInv env prog s) (hm : MasterInv env prog init s) {i : Nat} (hi : i < env.T)
    (hins : prog[s.pc i]? = some .returnBack) :
    s.acc.m_vvuiSharedMem = (masterState env prog (s.pc i - 1) init).1 ∧
      ∃ p, (masterState env prog (s.pc i - 1) init).1.getLast? = some p := by
  obtain ⟨bytes, hq2, hbar, hemp⟩ := hwf.1 _ hins
  have h0T : 0 < env.T := by omega
  have hlow : s.pc i - 1 ≤ s.pc 0 := barrierInv_le hb hi h0T (by omega) hbar
  have hconst : masterState env prog (s.pc 0) init = masterState env prog (s.pc i - 1) init := by
    apply masterState_const env prog init _ _ hlow
    intro r hr1 hr2 b hr
    obtain ⟨hr3, hrbar⟩ := hwf.2 r b hr
    have hne1 : r ≠ s.pc i - 1 := by
      intro e
      rw [e, hbar] at hr
      cases hr
    have hne2 : r ≠ s.pc i := by
      intro e
      rw [e, hins] at hr
      cases hr
    have h3 : r - 1 ≤ s.pc i := barrierInv_le hb h0T hi (by omega) hrbar
    have h4 : r - 1 = s.pc i := by omega
    rw [h4, hins] at hrbar
    cases hrbar
  constructor
  · have := congrArg Prod.fst hm
    simp only at this
    rw [this, hconst]
  · have h2 : s.pc i - 1 = (s.pc i - 2) + 1 := by omega
    rw [h2, masterState_succ env prog _ init _ hemp]
    simp [masterEffect]

theorem retsInv_step {N : Nat} {env : Env N} {prog : List (Instr N)}
    {init : List Nat × List (Nat × Nat)} (hwf : WellFormed prog) {i : Nat}
    {s s' : BlockState N} (hb : BarrierInv env prog s) (hm : MasterInv env prog init s)
    (hinv : RetsInv env prog init s) (h : step env prog i s = some s') :
    RetsInv env prog init s' := by
  obtain ⟨hi, ins, hins, hex⟩ := step_some h
  rcases exec_pc hex with hent | hthr | hpc
  · subst hent; exact hinv
  · subst hthr; exact hinv
  by_cases hret : ins = .returnBack
  · subst hret
    obtain ⟨harena, p, hp⟩ := arena_at_return hwf hb hm hi hins
    have hlast : s.acc.m_vvuiSharedMem.getLast? = some p := by rw [harena]; exact hp
    have hs' : s' = s.ret i (.num p) := by
      simp only [exec, hlast] at hex
      exact (Option.some.inj hex).symm
    refine ⟨?_, ?_⟩
    · rw [hs']; exact hinv.1
    · intro a ha q hq hqr
      by_cases hnew : a = i ∧ q = s.pc i
      · obtain ⟨rfl, rfl⟩ := hnew
        refine ⟨p, hp, ?_⟩
        rw [hs']
        simp [BlockState.ret]
      · have hne : a ≠ i ∨ q ≠ s.pc i := by
          by_cases ha' : a = i
          · right; intro hq'; exact hnew ⟨ha', hq'⟩
          · left; exact ha'
        rw [exec_rets_other hex a q hne]
        apply hinv.2 a ha q _ hqr
        rw [hpc] at hq
        by_cases ha' : a = i
        · subst ha'
          simp only [Function.update_same] at hq
          rcases hne with h1 | h1
          · exact absurd rfl h1
          · omega
        · rwa [Function.update_noteq ha'] at hq
  · refine ⟨?_, ?_⟩
    · rw [exec_ub hex hret]; exact hinv.1
    · intro a ha q hq hqr
      have hne : a ≠ i ∨ q ≠ s.pc i := by
        by_cases ha' : a = i
        · right
          intro hq'
          subst ha'
          rw [hq', hins] at hqr
          exact hret (Option.some.inj hqr)
        · left; exact ha'
      rw [exec_rets_other hex a q hne]
      apply hinv.2 a ha q _ hqr
      rw [hpc] at hq
      by_cases ha' : a = i
      · subst ha'
        simp only [Function.update_same] at hq
        rcases hne with h1 | h1
        · exact absurd rfl h1
        · omega
      · rwa [Function.update_noteq ha'] at hq

theorem inv_step {N : Nat} {env : Env N} {prog : List (Instr N)}
    {init : List Nat × List (Nat × Nat)} (hwf : WellFormed prog) (s : BlockState N) (i : Nat)
    (s' : BlockState N) (hinv : Inv env prog init s) (h : step env prog i s = some s') :
    Inv env prog init s' :=
  ⟨barrierInv_step hinv.1 h, masterInv_step hinv.2.1 h, retsInv_step hwf hinv.1 hinv.2.1 hinv.2.2 h⟩

/-- The invariants hold under every schedule. -/
theorem inv_run {N : Nat} (env : Env N) (prog : List (Instr N)) (hwf : WellFormed prog)
    (acc : AccCpuOmp2Threads N) (heap : List (Nat × Nat)) (mem : Nat → Nat) (sched : List Nat) :
    Inv env prog (acc.m_vvuiSharedMem, heap) (run env prog sched (BlockState.start acc heap mem)) :=
  run_induction (Inv env prog (acc.m_vvuiSharedMem, heap)) (inv_step hwf) sched _
    (inv_start env prog acc heap mem)

/-- A thread that is not held back in a barrier and whose allocation does not throw takes its
step. -/
theorem exec_after {N : Nat} (env : Env N) (ins : Instr N) (i : Nat) (s : BlockState N)
    (hg : ins = .barrier → s.inBarrier i = true →
      ∀ j < env.T, s.pc i < s.pc j ∨ (s.pc j = s.pc i ∧ s.inBarrier j = true))
    (hna : ∀ bytes, ins = .emplaceBackIfMaster bytes → i = 0 →
      env.bad_alloc s.heap bytes = false) :
    ∃ s', exec env ins i s = some s' ∧
      s'.pc i = (ins.after (s.pc i) (s.inBarrier i)).1 ∧
      s'.inBarrier i = (ins.after (s.pc i) (s.inBarrier i)).2 ∧
      ∀ j, j ≠ i → s'.pc j = s.pc j ∧ s'.inBarrier j = s.inBarrier j := by
  have hadv : ∀ t : BlockState N, t.pc = s.pc → t.inBarrier = s.inBarrier →
      (t.advance i).pc i = s.pc i + 1 ∧ (t.advance i).inBarrier i = s.inBarrier i ∧
      ∀ j, j ≠ i → (t.advance i).pc j = s.pc j ∧ (t.advance i).inBarrier j = s.inBarrier j := by
    intro t h1 h2
    refine ⟨by simp [BlockState.advance, h1], by simp [BlockState.advance, h2], ?_⟩
    intro j hj
    simp [BlockState.advance, h1, h2, Function.update_noteq hj]
  have hret : ∀ (t : BlockState N) (v : Val N), t.pc = s.pc → t.inBarrier = s.inBarrier →
      (t.ret i v).pc i = s.pc i + 1 ∧ (t.ret i v).inBarrier i = s.inBarrier i ∧
      ∀ j, j ≠ i → (t.ret i v).pc j = s.pc j ∧ (t.ret i v).inBarrier j = s.inBarrier j := by
    intro t v h1 h2
    refine ⟨by simp [BlockState.ret, h1], by simp [BlockState.ret, h2], ?_⟩
    intro j hj
    simp [BlockState.ret, h1, h2, Function.update_noteq hj]
  cases ins <;> simp only [exec, Instr.after]
  case barrier =>
    by_cases hw : s.inBarrier i = true
    · rw [if_pos hw, if_pos (hg rfl hw)]
      refine ⟨_, rfl, by simp [BlockState.leave, hw], by simp [BlockState.leave, hw], ?_⟩
      intro j hj
      simp [BlockState.leave, Function.update_noteq hj]
    · rw [if_neg hw]
      have hw' : s.inBarrier i = false := by simpa using hw
      refine ⟨_, rfl, by simp [BlockState.enter, hw'], by simp [BlockState.enter, hw'], ?_⟩
      intro j hj
      simp [BlockState.enter, Function.update_noteq hj]
  case emplaceBackIfMaster bytes =>
    by_cases h0 : i = 0
    · have hb : ¬ env.bad_alloc s.heap bytes = true := by
        rw [hna bytes rfl h0]; decide
      rw [if_pos h0, if_neg hb]; exact ⟨_, rfl, hadv _ rfl rfl⟩
    · rw [if_neg h0]; exact ⟨_, rfl, hadv _ rfl rfl⟩
  case returnBack =>
    cases s.acc.m_vvuiSharedMem.getLast? with
    | none => exact ⟨_, rfl, hadv _ rfl rfl⟩
    | some p => exact ⟨_, rfl, hret _ _ rfl rfl⟩
  case store => exact ⟨_, rfl, hadv _ rfl rfl⟩
  all_goals exact ⟨_, rfl, hret _ _ rfl rfl⟩

/-- One round of the round-robin schedule from a state where all threads of the team are at the
same position: every thread takes one step. -/
theorem run_round {N : Nat} (env : Env N) (prog : List (Instr N)) (k : Nat) (w : Bool)
    (ins : Instr N) (hins : prog[k]? = some ins) (s : BlockState N) (hs : Uniform env k w s)
    (hna : ∀ bytes, ins = .emplaceBackIfMaster bytes → env.bad_alloc s.heap bytes = false)
    (m : Nat) (hm : m ≤ env.T) :
    ∀ i < env.T,
      ((run env prog (List.range m) s).pc i, (run env prog (List.range m) s).inBarrier i) =
        if i < m then ins.after k w else (k, w) := by
  induction m with
  | zero => intro i hi; simp [run, hs i hi]
  | succ m ih =>
    have ih' := ih (by omega)
    have ht0 : m = 0 → (run env prog (List.range m) s).heap = s.heap := by
      intro h0; subst h0; rfl
    rw [List.range_succ, run_append]
    generalize run env prog (List.range m) s = t at ih' ht0
    have hmT : m < env.T := by omega
    have hm0 := ih' m hmT
    simp only [lt_irrefl, if_false, Prod.mk.injEq] at hm0
    obtain ⟨hpcm, hwm⟩ := hm0
    obtain ⟨t', ht', h1, h2, h3⟩ := exec_after env ins m t (by
      intro hbar hw j hj
      have hj' := ih' j hj
      subst hbar
      rw [hwm] at hw
      subst hw
      by_cases hjm : j < m
      · simp only [hjm, if_true, Instr.after, Prod.mk.injEq] at hj'
        left; omega
      · simp only [hjm, if_false, Prod.mk.injEq] at hj'
        right; exact ⟨by omega, hj'.2⟩) (by
      intro bytes hb h0
      rw [ht0 h0]
      exact hna bytes hb)
    have hstep : step env prog m t = some t' := by
      simp only [step, if_pos hmT, hpcm, hins, ht']
    intro i hi
    simp only [run, hstep, Option.getD_some]
    by_cases him : i = m
    · subst him
      rw [h1, h2, hpcm, hwm]
      simp
    · rw [(h3 i him).1, (h3 i him).2, ih' i hi]
      by_cases h4 : i < m
      · simp [h4, Nat.lt_succ_of_lt h4]
      · have h5 : ¬ i < m + 1 := by omega
        simp [h4, h5]

/-- A block that has run to the end stays as it is. -/
theorem run_finished {N : Nat} (env : Env N) (prog : List (Instr N)) (sched : List Nat)
    (s : BlockState N) (h : finished env prog s) : run env prog sched s = s := by
  induction sched with
  | nil => rfl
  | cons i sched ih =>
    have hstep : step env prog i s = none := by
      unfold step
      split
      · rename_i hi
        rw [List.getElem?_eq_none (h i hi)]
      · rfl
    simp only [run, hstep, Option.getD_none]
    exact ih

theorem masterInv_run {N : Nat} (env : Env N) (prog : List (Instr N))
    (init : List Nat × List (Nat × Nat)) (sched : List Nat) (s : BlockState N)
    (h : MasterInv env prog init s) : MasterInv env prog init (run env prog sched s) :=
  run_induction (MasterInv env prog init) (fun _ _ _ hinv hstep => masterInv_step hinv hstep)
    sched s h

theorem run_roundRobin {N : Nat} (env : Env N) (prog : List (Instr N))
    (init : List Nat × List (Nat × Nat)) (hok : AllocOk env prog init) (r : Nat) :
    ∀ (k : Nat) (w : Bool) (s : BlockState N), Uniform env k w s → MasterInv env prog init s →
      2 * prog.length ≤ 2 * k + (if w then 1 else 0) + r →
      finished env prog (run env prog (roundRobin env.T r) s) := by
  induction r with
  | zero =>
    intro k w s hs _ hk i hi
    simp only [roundRobin, List.replicate_zero, List.flatten_nil, run]
    rw [(hs i hi).1]
    cases w <;> simp at hk <;> omega
  | succ r ih =>
    intro k w s hs hmi hk
    have hrr : roundRobin env.T (r + 1) = List.range env.T ++ roundRobin env.T r := by
      simp [roundRobin, List.replicate_succ]
    rw [hrr, run_append]
    rcases Nat.lt_or_ge k prog.length with hlt | hge
    · have hins : prog[k]? = some prog[k] := List.getElem?_eq_getElem hlt
      rcases Nat.eq_zero_or_pos env.T with hT0 | hTpos
      · intro i hi; omega
      have hna : ∀ bytes, prog[k] = .emplaceBackIfMaster bytes →
          env.bad_alloc s.heap bytes = false := by
        intro bytes hb
        have h1 := hok k bytes (by rw [hins, hb])
        have h2 := congrArg Prod.snd hmi
        simp only at h2
        rw [h2, (hs 0 hTpos).1]
        exact h1
      have h1 := run_round env prog k w prog[k] hins s hs hna env.T (le_refl _)
      refine ih (prog[k].after k w).1 (prog[k].after k w).2 _ ?_
        (masterInv_run env prog init _ s hmi) ?_
      · intro j hj
        have := h1 j hj
        simp only [hj, if_true, Prod.ext_iff] at this
        exact this
      · cases hk' : prog[k] <;> cases w <;> simp [Instr.after] at hk ⊢ <;> omega
    · have hfin : finished env prog s := fun i hi => by rw [(hs i hi).1]; exact hge
      rw [run_finished env prog _ s hfin, run_finished env prog _ s hfin]
      exact hfin

/-- When no allocating statement throws, the round-robin schedule with twice as many rounds as
the kernel body has statements runs every thread of the team to the end of the body: no
deadlock. -/
theorem roundRobin_finished {N : Nat} (env : Env N) (prog : List (Instr N))
    (acc : AccCpuOmp2Threads N) (heap : List (Nat × Nat)) (mem : Nat → Nat)
    (hok : AllocOk env prog (acc.m_vvuiSharedMem, heap)) :
    finished env prog
      (run env prog (roundRobin env.T (2 * prog.length)) (BlockState.start acc heap mem)) :=
  run_roundRobin env prog _ hok (2 * prog.length) 0 false (BlockState.start acc heap mem)
    (fun _ _ => ⟨rfl, rfl⟩) (inv_start env prog acc heap mem).2.1 (by simp)

/-- On a free store that never runs out no allocating statement throws. -/
theorem allocOk_of_noBadAlloc {N : Nat} (env : Env N) (prog : List (Instr N))
    (init : List Nat × List (Nat × Nat)) (h : NoBadAlloc env) : AllocOk env prog init :=
  fun _ _ _ => h _ _

/-- The one allocating statement of a single call site is asked of the live allocations at the
start. -/
theorem allocOk_site {N : Nat} (env : Env N) (bytes : Nat) (arena : List Nat)
    (heap : List (Nat × Nat)) (h : env.bad_alloc heap bytes = false) :
    AllocOk env ([.barrier, .emplaceBackIfMaster bytes, .barrier, .returnBack] : List (Instr N))
      (arena, heap) := by
  intro q b hq
  rcases q with _ | _ | _ | _ | q
  · simp at hq
  · simp at hq
    subst hq
    simpa [masterState, masterEffect] using h
  · simp at hq
  · simp at hq
  · simp at hq

theorem masterState_of_length_le {N : Nat} (env : Env N) (prog : List (Instr N)) (k : Nat)
    (init : List Nat × List (Nat × Nat)) (h : prog.length ≤ k) :
    masterState env prog k init = masterState env prog prog.length init := by
  unfold masterState
  rw [List.take_of_length_le h, List.take_of_length_le (le_refl _)]

/-- The body of `allocBlockSharedMem` with a positive number of elements. -/
theorem allocBlockSharedMem_ok {N : Nat} (sizeofT count : Nat) (h : 0 < count) :
    allocBlockSharedMem sizeofT count = (.ok [.barrier, .emplaceBackIfMaster (count * sizeofT),
      .barrier, .returnBack] : Except String (List (Instr N))) := by
  simp [allocBlockSharedMem, syncBlockThreads, h]

theorem wellFormed_site {N : Nat} (bytes : Nat) :
    WellFormed ([.barrier, .emplaceBackIfMaster bytes, .barrier, .returnBack] : List (Instr N)) := by
  constructor
  · intro q hq
    rcases q with _ | _ | _ | _ | q
    · simp at hq
    · simp at hq
    · simp at hq
    · exact ⟨bytes, by omega, by simp, by simp⟩
    · simp at hq
  · intro r b hr
    rcases r with _ | _ | r
    · simp at hr
    · exact ⟨by omega, by simp⟩
    · rcases r with _ | _ | r <;> simp at hr

theorem wellFormed_append {N : Nat} {a b : List (Instr N)} (ha : WellFormed a)
    (hb : WellFormed b) : WellFormed (a ++ b) := by
  constructor
  · intro q hq
    rcases Nat.lt_or_ge q a.length with h | h
    · rw [List.getElem?_append_left h] at hq
      obtain ⟨bytes, h2, h3, h4⟩ := ha.1 q hq
      refine ⟨bytes, h2, ?_, ?_⟩
      · rw [List.getElem?_append_left (by omega)]; exact h3
      · rw [List.getElem?_append_left (by omega)]; exact h4
    · rw [List.getElem?_append_right h] at hq
      obtain ⟨bytes, h2, h3, h4⟩ := hb.1 _ hq
      refine ⟨bytes, by omega, ?_, ?_⟩
      · rw [List.getElem?_append_right (by omega)]
        have : q - 1 - a.length = q - a.length - 1 := by omega
        rw [this]; exact h3
      · rw [List.getElem?_append_right (by omega)]
        have : q - 2 - a.length = q - a.length - 2 := by omega
        rw [this]; exact h4
  · intro r bytes hr
    rcases Nat.lt_or_ge r a.length with h | h
    · rw [List.getElem?_append_left h] at hr
      obtain ⟨h2, h3⟩ := ha.2 r bytes hr
      refine ⟨h2, ?_⟩
      rw [List.getElem?_append_left (by omega)]; exact h3
    · rw [List.getElem?_append_right h] at hr
      obtain ⟨h2, h3⟩ := hb.2 _ bytes hr
      refine ⟨by omega, ?_⟩
      rw [List.getElem?_append_right (by omega)]
      have : r - 1 - a.length = r - a.length - 1 := by omega
      rw [this]; exact h3

/-- The statements at a call site. -/
theorem callSite_get {N : Nat} {prog : List (Instr N)} {q sizeofT count : Nat}
    (h : CallSite prog q sizeofT count) :
    0 < count ∧ 3 ≤ q ∧ prog[q]? = some .returnBack ∧
      prog[q - 2]? = some (.emplaceBackIfMaster (count * sizeofT)) := by
  obtain ⟨pre, body, post, hbody, hprog, hq⟩ := h
  have hc : 0 < count := by
    by_contra hc
    simp [allocBlockSharedMem, hc] at hbody
  rw [allocBlockSharedMem_ok sizeofT count hc] at hbody
  cases hbody
  subst hprog hq
  refine ⟨hc, by omega, ?_, ?_⟩
  · rw [List.append_assoc, List.getElem?_append_right (by omega)]
    simp
  · rw [List.append_assoc, List.getElem?_append_right (by omega)]
    have : pre.length + 3 - 2 - pre.length = 1 := by omega
    rw [this]
    simp

/-- A thread that has returned from `allocBlockSharedMem` at position `q` holds the buffer
allocated by the statement at position `q - 2`. -/
theorem site_return {N : Nat} (env : Env N) (prog : List (Instr N)) (hwf : WellFormed prog)
    (q bytes : Nat) (hq2 : 2 ≤ q) (hq : prog[q]? = some .returnBack)
    (hemp : prog[q - 2]? = some (.emplaceBackIfMaster bytes))
    (acc : AccCpuOmp2Threads N) (heap : List (Nat × Nat)) (mem : Nat → Nat) (sched : List Nat)
    (i : Nat) (hi : i < env.T)
    (hpc : q < (run env prog sched (BlockState.start acc heap mem)).pc i) :
    (run env prog sched (BlockState.start acc heap mem)).rets i q =
      some (.num (env.alloc (masterState env prog (q - 2) (acc.m_vvuiSharedMem, heap)).2 bytes)) := by
  obtain ⟨-, -, -, hr⟩ := inv_run env prog hwf acc heap mem sched
  obtain ⟨p, hp, hret⟩ := hr i hi q hpc hq
  have h2 : q - 1 = (q - 2) + 1 := by omega
  rw [h2, masterState_succ env prog _ _ _ hemp] at hp
  simp [masterEffect] at hp
  rw [hret, ← hp]

theorem masterState_heap_mono {N : Nat} (env : Env N) (prog : List (Instr N))
    (init : List Nat × List (Nat × Nat)) (k k' : Nat) (hk : k ≤ k') (b : Nat × Nat)
    (hb : b ∈ (masterState env prog k init).2) : b ∈ (masterState env prog k' init).2 := by
  induction k' with
  | zero =>
    have : k = 0 := by omega
    subst this; exact hb
  | succ k' ih =>
    rcases Nat.eq_or_lt_of_le hk with h1 | h1
    · rw [← h1]; exact hb
    · have ih' := ih (by omega)
      cases hget : prog[k']? with
      | none => rw [masterState_succ_none env prog k' init hget]; exact ih'
      | some ins =>
        rw [masterState_succ env prog k' init ins hget]
        cases ins <;> simp only [masterEffect] <;> first | exact ih' | exact List.mem_cons_of_mem _ ih'

/-- Two call sites, the first before the second: the buffers do not overlap. -/
theorem sites_disjoint {N : Nat} (env : Env N) (hfresh : FreshAlloc env.alloc)
    (prog : List (Instr N)) (init : List Nat × List (Nat × Nat)) (q1 q2 n : Nat)
    (h1 : 2 ≤ q1) (hlt : q1 + 1 < q2)
    (hemp1 : prog[q1 - 2]? = some (.emplaceBackIfMaster n)) :
    env.alloc (masterState env prog (q2 - 2) init).2 n + n ≤
        env.alloc (masterState env prog (q1 - 2) init).2 n ∨
      env.alloc (masterState env prog (q1 - 2) init).2 n + n ≤
        env.alloc (masterState env prog (q2 - 2) init).2 n := by
  have hmem : (env.alloc (masterState env prog (q1 - 2) init).2 n, n) ∈
      (masterState env prog (q1 - 2 + 1) init).2 := by
    rw [masterState_succ env prog _ _ _ hemp1]
    simp [masterEffect]
  have hmem2 := masterState_heap_mono env prog init (q1 - 2 + 1) (q2 - 2) (by omega) _ hmem
  exact hfresh _ n _ hmem2

/-- A step of a thread with a number other than 0 leaves the vector of buffers as it is. -/
theorem step_arena_other {N : Nat} (env : Env N) (prog : List (Instr N)) (i : Nat)
    (s : BlockState N) (hi : i ≠ 0) :
    ((step env prog i s).getD s).acc.m_vvuiSharedMem = s.acc.m_vvuiSharedMem := by
  cases h : step env prog i s with
  | none => rfl
  | some s' =>
    obtain ⟨-, ins, -, hex⟩ := step_some h
    rcases exec_arena hex with h1 | ⟨h0, -⟩
    · exact h1
    · exact absurd h0 hi

/-- A step of the thread with number 0: an entry is appended by an allocating statement that
does not throw, and by no other statement. -/
theorem step_arena_master {N : Nat} (env : Env N) (prog : List (Instr N)) (s : BlockState N)
    (hT : 1 ≤ env.T)
    (hna : ∀ bytes, prog[s.pc 0]? = some (.emplaceBackIfMaster bytes) →
      env.bad_alloc s.heap bytes = false) :
    ((step env prog 0 s).getD s).acc.m_vvuiSharedMem =
      match prog[s.pc 0]? with
      | some (.emplaceBackIfMaster bytes) => s.acc.m_vvuiSharedMem ++ [env.alloc s.heap bytes]
      | _ => s.acc.m_vvuiSharedMem := by
  have h0 : 0 < env.T := by omega
  cases hget : prog[s.pc 0]? with
  | none => simp [step, h0, hget]
  | some ins =>
    by_cases hemp : ∃ bytes, ins = .emplaceBackIfMaster bytes
    · obtain ⟨bytes, rfl⟩ := hemp
      have hb : ¬ env.bad_alloc s.heap bytes = true := by
        rw [hna bytes hget]; decide
      simp [step, h0, hget, exec, hb, BlockState.advance]
    · have hkeep : ((step env prog 0 s).getD s).acc.m_vvuiSharedMem = s.acc.m_vvuiSharedMem := by
        cases h : step env prog 0 s with
        | none => rfl
        | some s' =>
          obtain ⟨-, ins', hins', hex⟩ := step_some h
          rw [hget] at hins'
          cases hins'
          rcases exec_arena hex with h1 | ⟨-, bytes, h2, -⟩
          · exact h1
          · exact absurd ⟨bytes, h2⟩ hemp
      rw [hkeep]
      cases ins <;> first
        | rfl
        | exact absurd ⟨_, rfl⟩ hemp

theorem le_foldr_max (l : List Nat) (x : Nat) (h : x ∈ l) : x ≤ l.foldr max 0 := by
  induction l with
  | nil => cases h
  | cons a l ih =>
    simp only [List.foldr_cons]
    rcases List.mem_cons.mp h with h1 | h1
    · subst h1; exact le_max_left _ _
    · exact le_trans (ih h1) (le_max_right _ _)

/-- The bump allocator returns fresh buffers. -/
theorem freshAlloc_bumpAlloc : FreshAlloc bumpAlloc := by
  intro heap bytes b hb
  right
  apply le_foldr_max
  exact List.mem_map.mpr ⟨b, hb, rfl⟩

/-- A thread that is about to return from `allocBlockSharedMem` at position `q` finds the buffer
allocated by the statement at position `q - 2` as the last entry of the vector of buffers. -/
theorem site_back {N : Nat} (env : Env N) (prog : List (Instr N)) (hwf : WellFormed prog)
    (q bytes : Nat) (hq2 : 2 ≤ q) (hq : prog[q]? = some .returnBack)
    (hemp : prog[q - 2]? = some (.emplaceBackIfMaster bytes))
    (acc : AccCpuOmp2Threads N) (heap : List (Nat × Nat)) (mem : Nat → Nat) (sched : List Nat)
    (i : Nat) (hi : i < env.T)
    (hpc : (run env prog sched (BlockState.start acc heap mem)).pc i = q) :
    (run env prog sched (BlockState.start acc heap mem)).acc.m_vvuiSharedMem.getLast? =
      some (env.alloc (masterState env prog (q - 2) (acc.m_vvuiSharedMem, heap)).2 bytes) := by
  obtain ⟨hb, hm, -, -⟩ := inv_run env prog hwf acc heap mem sched
  generalize run env prog sched (BlockState.start acc heap mem) = s at *
  subst hpc
  obtain ⟨ha, -⟩ := arena_at_return hwf hb hm hi hq
  have h2 : s.pc i - 1 = (s.pc i - 2) + 1 := by omega
  rw [ha, h2, masterState_succ env prog _ _ _ hemp]
  simp [masterEffect]

theorem wellFormed_demoKernel : WellFormed demoKernel :=
  wellFormed_append (wellFormed_site 8) (wellFormed_site 8)

theorem callSite_demoKernel_first : CallSite demoKernel 3 4 2 :=
  ⟨[], [.barrier, .emplaceBackIfMaster 8, .barrier, .returnBack],
    [.barrier, .emplaceBackIfMaster 8, .barrier, .returnBack], rfl, rfl, rfl⟩

theorem callSite_demoKernel_second : CallSite demoKernel 7 4 2 :=
  ⟨[.barrier, .emplaceBackIfMaster 8, .barrier, .returnBack],
    [.barrier, .emplaceBackIfMaster 8, .barrier, .returnBack], [], rfl, rfl, rfl⟩

/-! ## One call site, the visibility kernel, prefixes, decimal digits -/

/-- The block that runs one call of `allocBlockSharedMem` (body of four statements, `bytes` bytes
to allocate), under any schedule: no undefined behaviour, every thread that has returned holds
the buffer `operator new[]` gave for the live allocations at the start, and the vector of buffers
is the initial one until the thread with number 0 has allocated and the initial one with that
buffer appended from then on. -/
theorem single_site_run {N : Nat} (env : Env N) (bytes : Nat) (acc : AccCpuOmp2Threads N)
    (heap : List (Nat × Nat)) (mem : Nat → Nat) (sched : List Nat) :
    (run env [.barrier, .emplaceBackIfMaster bytes, .barrier, .returnBack] sched
        (BlockState.start acc heap mem)).ub = false ∧
      (∀ i < env.T,
        3 < (run env [.barrier, .emplaceBackIfMaster bytes, .barrier, .returnBack] sched
          (BlockState.start acc heap mem)).pc i →
        (run env [.barrier, .emplaceBackIfMaster bytes, .barrier, .returnBack] sched
          (BlockState.start acc heap mem)).rets i 3 = some (.num (env.alloc heap bytes))) ∧
      (run env [.barrier, .emplaceBackIfMaster bytes, .barrier, .returnBack] sched
        (BlockState.start acc heap mem)).acc.m_vvuiSharedMem =
        if 2 ≤ (run env [.barrier, .emplaceBackIfMaster bytes, .barrier, .returnBack] sched
          (BlockState.start acc heap mem)).pc 0
        then acc.m_vvuiSharedMem ++ [env.alloc heap bytes] else acc.m_vvuiSharedMem := by
  obtain ⟨-, hm, hub, hr⟩ := inv_run env _ (wellFormed_site bytes) acc heap mem sched
  generalize run env _ sched (BlockState.start acc heap mem) = s at *
  refine ⟨hub, ?_, ?_⟩
  · intro i hi hpc
    obtain ⟨p, hp, hret⟩ := hr i hi 3 hpc (by simp)
    simp [masterState, masterEffect] at hp
    rw [hret, ← hp]
  · have := congrArg Prod.fst hm
    simp only at this
    rw [this]
    rcases s.pc 0 with _ | _ | _ | _ | k <;> simp [masterState, masterEffect]

set_option maxRecDepth 20000 in
/-- The two call sites of the demonstration kernel, threads 0 and 1 in turn: thread 1 gets the
buffer at 120 from the first call site and the buffer at 128 from the second. -/
theorem demoKernel_values :
    (run demoEnv demoKernel (roundRobin 2 16) demoStart).rets 1 3 = some (.num 120) ∧
      (run demoEnv demoKernel (roundRobin 2 16) demoStart).rets 1 7 = some (.num 128) ∧
      (run demoEnv demoKernel (roundRobin 2 16) demoStart).acc.m_vvuiSharedMem = [120, 128] := by
  decide

theorem barrierInv_run {N : Nat} (env : Env N) (prog : List (Instr N))
    (acc : AccCpuOmp2Threads N) (heap : List (Nat × Nat)) (mem : Nat → Nat) (sched : List Nat) :
    BarrierInv env prog (run env prog sched (BlockState.start acc heap mem)) :=
  run_induction (BarrierInv env prog) (fun _ _ _ hinv h => barrierInv_step hinv h) sched _
    (inv_start env prog acc heap mem).1

theorem sum_map_range_one (f : Nat → Nat) (n : Nat) (h : ∀ j < n, f j = 1) :
    ((List.range n).map f).sum = n := by
  induction n with
  | zero => rfl
  | succ n ih =>
    rw [List.range_succ, List.map_append, List.sum_append, ih (fun j hj => h j (by omega))]
    simp [h n (by omega)]

theorem exec_barrier_mem {N : Nat} {env : Env N} {i : Nat} {s s' : BlockState N}
    (h : exec env .barrier i s = some s') : s'.mem = s.mem ∧ s'.rets = s.rets := by
  simp only [exec] at h
  split at h
  · split at h
    · cases h; exact ⟨rfl, rfl⟩
    · cases h
  · cases h; exact ⟨rfl, rfl⟩

theorem flags_step {N : Nat} {env : Env N} {flags : Nat} {i : Nat} {s s' : BlockState N}
    (hb : BarrierInv env (flagsKernel flags env.T) s) (hf : FlagsInv env flags s)
    (hr : FlagsRets env s) (h : step env (flagsKernel flags env.T) i s = some s') :
    FlagsInv env flags s' ∧ FlagsRets env s' := by
  obtain ⟨hi, ins, hins, hex⟩ := step_some h
  rcases exec_pc hex with hent | hthr | hpc
  · subst hent; exact ⟨hf, hr⟩
  · subst hthr; exact ⟨hf, hr⟩
  have hpcj : ∀ j, j ≠ i → s'.pc j = s.pc j := by
    intro j hj; rw [hpc, Function.update_noteq hj]
  have hpci : s'.pc i = s.pc i + 1 := by rw [hpc]; simp
  rcases hcase : s.pc i with _ | _ | _ | k
  · -- the store
    rw [hcase] at hins
    simp [flagsKernel, syncBlockThreads] at hins
    subst hins
    simp only [exec] at hex
    cases hex
    constructor
    · intro j hj hpos
      by_cases hji : j = i
      · subst hji; simp [BlockState.advance]
      · have : s.mem (flags + j) = 1 := hf j hj (by
          simp only [BlockState.advance] at hpos
          rw [Function.update_noteq hji] at hpos
          exact hpos)
        simp only [BlockState.advance]
        by_cases hadd : flags + j = flags + i
        · rw [hadd]; simp
        · rw [Function.update_noteq hadd]; exact this
    · intro j hj hpos
      have hji : j ≠ i := by
        intro e; subst e
        simp [BlockState.advance, hcase] at hpos
      simp only [BlockState.advance] at hpos ⊢
      rw [Function.update_noteq hji] at hpos
      exact hr j hj hpos
  · -- the barrier
    rw [hcase] at hins
    simp [flagsKernel, syncBlockThreads] at hins
    subst hins
    obtain ⟨hmem, hrets⟩ := exec_barrier_mem hex
    constructor
    · intro j hj hpos
      rw [hmem]
      apply hf j hj
      by_cases hji : j = i
      · subst hji; omega
      · rw [hpcj j hji] at hpos; exact hpos
    · intro j hj hpos
      have hji : j ≠ i := by
        intro e; subst e
        omega
      rw [hpcj j hji] at hpos
      rw [hrets]
      exact hr j hj hpos
  · -- the load of the sum
    rw [hcase] at hins
    simp [flagsKernel, syncBlockThreads] at hins
    subst hins
    simp only [exec] at hex
    cases hex
    have hall : ∀ j < env.T, s.mem (flags + j) = 1 := by
      intro j hj
      apply hf j hj
      have := barrierInv_le hb hi hj (b := 1) (by omega) (by simp [flagsKernel, syncBlockThreads])
      omega
    constructor
    · intro j hj _
      exact hall j hj
    · intro j hj hpos
      by_cases hji : j = i
      · subst hji
        simp [BlockState.ret, hcase, sum_map_range_one _ _ hall]
      · simp only [BlockState.ret] at hpos ⊢
        rw [Function.update_noteq hji] at hpos ⊢
        exact hr j hj hpos
  · rw [hcase] at hins
    simp [flagsKernel, syncBlockThreads] at hins

theorem exec_arena_grows {N : Nat} (env : Env N) (ins : Instr N) (i : Nat) (s : BlockState N) :
    s.acc.m_vvuiSharedMem <+: ((exec env ins i s).getD s).acc.m_vvuiSharedMem := by
  cases h : exec env ins i s with
  | none => exact List.prefix_refl _
  | some s' =>
    simp only [Option.getD_some]
    rcases exec_arena h with h1 | ⟨-, bytes, -, -, h2⟩
    · rw [h1]
    · rw [h2]; exact List.prefix_append _ _

theorem step_arena_grows {N : Nat} (env : Env N) (prog : List (Instr N)) (i : Nat)
    (s : BlockState N) :
    s.acc.m_vvuiSharedMem <+: ((step env prog i s).getD s).acc.m_vvuiSharedMem := by
  unfold step
  split
  · split
    · exact exec_arena_grows env _ i s
    · exact List.prefix_refl _
  · exact List.prefix_refl _

theorem run_arena_grows {N : Nat} (env : Env N) (prog : List (Instr N)) (sched : List Nat)
    (s : BlockState N) :
    s.acc.m_vvuiSharedMem <+: (run env prog sched s).acc.m_vvuiSharedMem := by
  induction sched generalizing s with
  | nil => exact List.prefix_refl _
  | cons i sched ih =>
    exact List.IsPrefix.trans (step_arena_grows env prog i s) (ih _)

theorem digitChar_toNat (k : Nat) (h : k < 10) : (Nat.digitChar k).toNat - 48 = k := by
  interval_cases k <;> rfl

theorem foldl_toDigitsCore (fuel : Nat) : ∀ (n : Nat) (ds : List Char), n < fuel →
    (Nat.toDigitsCore 10 fuel n ds).foldl (fun acc c => acc * 10 + (c.toNat - 48)) 0 =
      ds.foldl (fun acc c => acc * 10 + (c.toNat - 48)) n := by
  induction fuel with
  | zero => intro n ds h; omega
  | succ fuel ih =>
    intro n ds h
    simp only [Nat.toDigitsCore]
    have hd := digitChar_toNat (n % 10) (Nat.mod_lt _ (by decide))
    split
    · rename_i h0
      simp only [List.foldl_cons, hd]
      congr 1
      omega
    · rename_i h0
      rw [ih (n / 10) _ (by omega)]
      simp only [List.foldl_cons, hd]
      congr 1
      omega

/-- The decimal representation of a number stands for that number. -/
theorem decimalValue_to_string (n : Nat) : decimalValue (to_string n) = n := by
  simp only [decimalValue, to_string, Nat.repr, Nat.toDigits, List.asString]
  rw [foldl_toDigitsCore (n + 1) n [] (by omega)]
  rfl

theorem exec_thrown {N : Nat} {env : Env N} {ins : Instr N} {i : Nat} {s s' : BlockState N}
    (h : exec env ins i s = some s') :
    s'.thrown = s.thrown ∨
      (i = 0 ∧ ∃ bytes, ins = .emplaceBackIfMaster bytes ∧ env.bad_alloc s.heap bytes = true) := by
  cases ins <;> simp only [exec] at h
  case barrier =>
    split at h
    · split at h
      · cases h; left; rfl
      · cases h
    · cases h; left; rfl
  case emplaceBackIfMaster bytes =>
    split at h
    · rename_i h0
      split at h
      · rename_i hb
        right; exact ⟨h0, bytes, rfl, hb⟩
      · cases h; left; rfl
    · cases h; left; rfl
  case returnBack =>
    split at h <;> (cases h; left; rfl)
  all_goals (cases h; left; rfl)

/-- When no allocating statement throws, nothing is thrown under any schedule. -/
theorem thrown_run {N : Nat} (env : Env N) (prog : List (Instr N)) (acc : AccCpuOmp2Threads N)
    (heap : List (Nat × Nat)) (mem : Nat → Nat)
    (hok : AllocOk env prog (acc.m_vvuiSharedMem, heap)) (sched : List Nat) :
    (run env prog sched (BlockState.start acc heap mem)).thrown = false := by
  have key := run_induction
    (fun s => MasterInv env prog (acc.m_vvuiSharedMem, heap) s ∧ s.thrown = false)
    (fun s i s' hinv h => by
      refine ⟨masterInv_step hinv.1 h, ?_⟩
      obtain ⟨-, ins, hins, hex⟩ := step_some h
      rcases exec_thrown hex with h1 | ⟨h0, bytes, h2, h3⟩
      · rw [h1]; exact hinv.2
      · subst h0 h2
        have h4 := hok (s.pc 0) bytes hins
        have h5 := congrArg Prod.snd hinv.1
        simp only at h5
        rw [← h5, h3] at h4
        cases h4)
    sched (BlockState.start acc heap mem) ⟨(inv_start env prog acc heap mem).2.1, rfl⟩
  exact key.2

theorem stuck_step {N : Nat} {env : Env N} {bytes : Nat} {acc : AccCpuOmp2Threads N}
    {heap : List (Nat × Nat)} (hT : 1 ≤ env.T) (hbad : env.bad_alloc heap bytes = true)
    {i : Nat} {s s' : BlockState N} (hinv : StuckInv env acc heap s)
    (h : step env [.barrier, .emplaceBackIfMaster bytes, .barrier, .returnBack] i s = some s') :
    StuckInv env acc heap s' := by
  obtain ⟨hi, ins, hins, hex⟩ := step_some h
  obtain ⟨h0, hle, hheap, harena, hrets⟩ := hinv
  have hpi := hle i hi
  rcases hcase : s.pc i with _ | _ | _ | k
  · -- the first barrier
    rw [hcase] at hins
    simp at hins
    subst hins
    simp only [exec] at hex
    split at hex
    · split at hex
      · cases hex
        refine ⟨?_, ?_, hheap, harena, hrets⟩
        · simp only [BlockState.leave]
          by_cases hi0 : (0 : Nat) = i
          · subst hi0; simp [hcase]
          · rw [Function.update_noteq hi0]; exact h0
        · intro j hj
          simp only [BlockState.leave]
          by_cases hji : j = i
          · subst hji; simp [hcase]
          · rw [Function.update_noteq hji]; exact hle j hj
      · cases hex
    · cases hex
      exact ⟨h0, hle, hheap, harena, hrets⟩
  · -- the allocating statement
    rw [hcase] at hins
    simp at hins
    subst hins
    simp only [exec] at hex
    split at hex
    · rename_i hi0
      split at hex
      · cases hex
        exact ⟨h0, hle, hheap, harena, hrets⟩
      · rename_i hnb
        rw [hheap] at hnb
        exact absurd hbad hnb
    · rename_i hi0
      cases hex
      refine ⟨?_, ?_, hheap, harena, hrets⟩
      · simp only [BlockState.advance]
        have : (0 : Nat) ≠ i := fun e => hi0 e.symm
        rw [Function.update_noteq this]; exact h0
      · intro j hj
        simp only [BlockState.advance]
        by_cases hji : j = i
        · subst hji; simp [hcase]
        · rw [Function.update_noteq hji]; exact hle j hj
  · -- the second barrier
    rw [hcase] at hins
    simp at hins
    subst hins
    simp only [exec] at hex
    split at hex
    · split at hex
      · rename_i hall
        have := hall 0 (by omega)
        omega
      · cases hex
    · cases hex
      exact ⟨h0, hle, hheap, harena, hrets⟩
  · omega

/-- A block that runs one call of `allocBlockSharedMem` whose allocation throws: under every
schedule the threads do not run to the end, nothing is appended and no thread gets a pointer. -/
theorem site_bad_alloc {N : Nat} (env : Env N) (bytes : Nat) (acc : AccCpuOmp2Threads N)
    (heap : List (Nat × Nat)) (mem : Nat → Nat) (hT : 1 ≤ env.T)
    (hbad : env.bad_alloc heap bytes = true) (sched : List Nat) :
    ¬ finished env [.barrier, .emplaceBackIfMaster bytes, .barrier, .returnBack]
        (run env [.barrier, .emplaceBackIfMaster bytes, .barrier, .returnBack] sched
          (BlockState.start acc heap mem)) ∧
      (run env [.barrier, .emplaceBackIfMaster bytes, .barrier, .returnBack] sched
        (BlockState.start acc heap mem)).acc.m_vvuiSharedMem = acc.m_vvuiSharedMem ∧
      ∀ i q, (run env [.barrier, .emplaceBackIfMaster bytes, .barrier, .returnBack] sched
        (BlockState.start acc heap mem)).rets i q = none := by
  have key := run_induction (StuckInv env acc heap)
    (fun s i s' hinv h => stuck_step hT hbad hinv h) sched (BlockState.start acc heap mem)
    ⟨Nat.zero_le _, fun _ _ => Nat.zero_le _, rfl, rfl, fun _ _ => rfl⟩
  obtain ⟨h0, -, -, harena, hrets⟩ := key
  refine ⟨?_, harena, hrets⟩
  intro hfin
  have := hfin 0 (by omega)
  simp at this
  omega

/-- The barrier visibility kernel has no allocating statement. -/
theorem allocOk_flagsKernel {N : Nat} (env : Env N) (flags T : Nat)
    (init : List Nat × List (Nat × Nat)) : AllocOk env (flagsKernel flags T : List (Instr N)) init := by
  intro q bytes hq
  rcases q with _ | _ | _ | q <;> simp [flagsKernel, syncBlockThreads] at hq

/-! ## The claims -/

/-- C1: a block of `T ≥ 1` threads runs one call site `allocBlockSharedMem<T, count>()` with
`count > 0`, from any accelerator state and any free store.  When `operator new[]` does not throw
for the request, some schedule runs every thread to the end; under every schedule no undefined
behaviour occurs, every thread that has returned has got the same pointer `p`, the buffer
allocated by this call site, and once all threads have returned the vector of buffers is the
initial one with `p` appended as its last entry.  The same for the call site at any position `q`
of any kernel body: there is one pointer `p` such that under every schedule every thread that is
about to return from the call site finds `p` as the last entry of the vector and every thread
that has returned from it has got `p`. -/
theorem allocBlockSharedMem_same_pointer {N : Nat} (env : Env N) (sizeofT count : Nat)
    (hT : 1 ≤ env.T) (hcount : 0 < count) (acc : AccCpuOmp2Threads N) (heap : List (Nat × Nat))
    (mem : Nat → Nat) :
    (∃ body p, allocBlockSharedMem sizeofT count = .ok body ∧
      p = env.alloc heap (count * sizeofT) ∧
      (env.bad_alloc heap (count * sizeofT) = false →
        ∃ sched, finished env body (run env body sched (BlockState.start acc heap mem))) ∧
      ∀ sched, (run env body sched (BlockState.start acc heap mem)).ub = false ∧
        (∀ i < env.T, 3 < (run env body sched (BlockState.start acc heap mem)).pc i →
          (run env body sched (BlockState.start acc heap mem)).rets i 3 = some (.num p)) ∧
        (finished env body (run env body sched (BlockState.start acc heap mem)) →
          (run env body sched (BlockState.start acc heap mem)).acc.m_vvuiSharedMem.getLast? =
              some p ∧
            (run env body sched (BlockState.start acc heap mem)).acc.m_vvuiSharedMem =
              acc.m_vvuiSharedMem ++ [p])) ∧
    (∀ (prog : List (Instr N)) (q : Nat), WellFormed prog → CallSite prog q sizeofT count →
      ∃ p, ∀ sched, ∀ i < env.T,
        ((run env prog sched (BlockState.start acc heap mem)).pc i = q →
          (run env prog sched (BlockState.start acc heap mem)).acc.m_vvuiSharedMem.getLast? =
            some p) ∧
        (q < (run env prog sched (BlockState.start acc heap mem)).pc i →
          (run env prog sched (BlockState.start acc heap mem)).rets i q = some (.num p))) := by
  constructor
  · refine ⟨_, _, allocBlockSharedMem_ok sizeofT count hcount, rfl,
      fun hnew => ⟨_, roundRobin_finished env _ acc heap mem (allocOk_site env _ _ heap hnew)⟩,
      ?_⟩
    intro sched
    obtain ⟨hub, hr, ha⟩ := single_site_run env (count * sizeofT) acc heap mem sched
    refine ⟨hub, hr, ?_⟩
    intro hfin
    have h0 : 2 ≤ (run env _ sched (BlockState.start acc heap mem)).pc 0 :=
      le_trans (by simp) (hfin 0 (by omega))
    rw [ha, if_pos h0]
    simp
  · intro prog q hwf hsite
    obtain ⟨-, hq3, hr, he⟩ := callSite_get hsite
    exact ⟨_, fun sched i hi =>
      ⟨site_back env prog hwf q _ (by omega) hr he acc heap mem sched i hi,
        site_return env prog hwf q _ (by omega) hr he acc heap mem sched i hi⟩⟩

/-- The theorem above at a team of two threads, an element type of 4 bytes and 2 elements, and
at the second call site of the demonstration kernel. -/
theorem allocBlockSharedMem_same_pointer_witness :
    (1 ≤ demoEnv.T ∧ 0 < 2 ∧ demoEnv.bad_alloc [(100, 20)] (2 * 4) = false ∧
      WellFormed demoKernel ∧ CallSite demoKernel 7 4 2) ∧
    (∃ body p, allocBlockSharedMem 4 2 = .ok body ∧
      p = demoEnv.alloc [(100, 20)] (2 * 4) ∧
      (∃ sched, finished demoEnv body (run demoEnv body sched demoStart)) ∧
      ∀ sched, (run demoEnv body sched demoStart).ub = false ∧
        (∀ i < demoEnv.T, 3 < (run demoEnv body sched demoStart).pc i →
          (run demoEnv body sched demoStart).rets i 3 = some (.num p)) ∧
        (finished demoEnv body (run demoEnv body sched demoStart) →
          (run demoEnv body sched demoStart).acc.m_vvuiSharedMem.getLast? = some p ∧
            (run demoEnv body sched demoStart).acc.m_vvuiSharedMem =
              (AccCpuOmp2Threads.ctor demoWorkDiv).m_vvuiSharedMem ++ [p])) ∧
    (∃ p, ∀ sched, ∀ i < demoEnv.T,
      ((run demoEnv demoKernel sched demoStart).pc i = 7 →
        (run demoEnv demoKernel sched demoStart).acc.m_vvuiSharedMem.getLast? = some p) ∧
      (7 < (run demoEnv demoKernel sched demoStart).pc i →
        (run demoEnv demoKernel sched demoStart).rets i 7 = some (.num p))) := by
  have h := allocBlockSharedMem_same_pointer demoEnv 4 2 (by decide) (by decide)
    (AccCpuOmp2Threads.ctor demoWorkDiv) [(100, 20)] (fun _ => 0)
  obtain ⟨⟨body, p, hbody, hp, hlive, hsafe⟩, hgen⟩ := h
  exact ⟨⟨by decide, by decide, rfl, wellFormed_demoKernel, callSite_demoKernel_second⟩,
    ⟨body, p, hbody, hp, hlive rfl, hsafe⟩,
    hgen demoKernel 7 wellFormed_demoKernel callSite_demoKernel_second⟩

/-- C2: a block of `T ≥ 1` threads runs one call site `allocBlockSharedMem<T, count>()` with
`count > 0`.  When `operator new[]` does not throw for the request, some schedule runs every
thread to the end; under every schedule the vector of buffers is the initial one or the initial
one with exactly one entry appended, and it has exactly one entry more once all threads have
returned, whatever `T` is.  In any state, a step of a thread with a number other than 0 leaves
the vector as it is, and a step of the thread with number 0 appends the new buffer when that
thread is at the allocating statement (position 1) and `operator new[]` does not throw, and
leaves the vector as it is when it throws and at every other position. -/
theorem allocBlockSharedMem_one_allocation {N : Nat} (env : Env N) (sizeofT count : Nat)
    (hT : 1 ≤ env.T) (hcount : 0 < count) (acc : AccCpuOmp2Threads N) (heap : List (Nat × Nat))
    (mem : Nat → Nat) :
    ∃ body, allocBlockSharedMem sizeofT count = .ok body ∧
      (env.bad_alloc heap (count * sizeofT) = false →
        ∃ sched, finished env body (run env body sched (BlockState.start acc heap mem))) ∧
      (∀ sched,
        ((run env body sched (BlockState.start acc heap mem)).acc.m_vvuiSharedMem =
            acc.m_vvuiSharedMem ∨
          (run env body sched (BlockState.start acc heap mem)).acc.m_vvuiSharedMem =
            acc.m_vvuiSharedMem ++ [env.alloc heap (count * sizeofT)]) ∧
        (finished env body (run env body sched (BlockState.start acc heap mem)) →
          (run env body sched (BlockState.start acc heap mem)).acc.m_vvuiSharedMem.length =
            acc.m_vvuiSharedMem.length + 1)) ∧
      (∀ (s : BlockState N) (i : Nat), i ≠ 0 →
        ((step env body i s).getD s).acc.m_vvuiSharedMem = s.acc.m_vvuiSharedMem) ∧
      (∀ s : BlockState N, s.pc 0 = 1 → env.bad_alloc s.heap (count * sizeofT) = false →
        ((step env body 0 s).getD s).acc.m_vvuiSharedMem =
          s.acc.m_vvuiSharedMem ++ [env.alloc s.heap (count * sizeofT)]) ∧
      (∀ s : BlockState N, s.pc 0 = 1 → env.bad_alloc s.heap (count * sizeofT) = true →
        ((step env body 0 s).getD s).acc.m_vvuiSharedMem = s.acc.m_vvuiSharedMem) ∧
      (∀ s : BlockState N, s.pc 0 ≠ 1 →
        ((step env body 0 s).getD s).acc.m_vvuiSharedMem = s.acc.m_vvuiSharedMem) := by
  refine ⟨_, allocBlockSharedMem_ok sizeofT count hcount,
    fun hnew => ⟨_, roundRobin_finished env _ acc heap mem (allocOk_site env _ _ heap hnew)⟩,
    ?_, ?_, ?_, ?_, ?_⟩
  · intro sched
    obtain ⟨-, -, ha⟩ := single_site_run env (count * sizeofT) acc heap mem sched
    constructor
    · rw [ha]
      split
      · right; rfl
      · left; rfl
    · intro hfin
      have h0 : 2 ≤ (run env _ sched (BlockState.start acc heap mem)).pc 0 :=
        le_trans (by simp) (hfin 0 (by omega))
      rw [ha, if_pos h0]
      simp
  · intro s i hi
    exact step_arena_other env _ i s hi
  · intro s hs hnew
    rw [step_arena_master env _ s hT (by
      intro bytes hb
      rw [hs] at hb
      simp at hb
      rw [← hb]; exact hnew), hs]
    simp
  · intro s hs hbad
    have h0 : 0 < env.T := by omega
    simp [step, h0, hs, exec, hbad, BlockState.throwBadAlloc]
  · intro s hs
    rw [step_arena_master env _ s hT (by
      intro bytes hb
      rcases hpc : s.pc 0 with _ | _ | _ | _ | k
      · rw [hpc] at hb; simp at hb
      · exact absurd hpc hs
      · rw [hpc] at hb; simp at hb
      · rw [hpc] at hb; simp at hb
      · rw [hpc] at hb; simp at hb)]
    rcases hpc : s.pc 0 with _ | _ | _ | _ | k
    · simp
    · exact absurd hpc hs
    · simp
    · simp
    · simp

/-- The theorem above at a team of two threads, an element type of 4 bytes and 2 elements. -/
theorem allocBlockSharedMem_one_allocation_witness :
    (1 ≤ demoEnv.T ∧ 0 < 2 ∧ demoEnv.bad_alloc [(100, 20)] (2 * 4) = false) ∧
    ∃ body, allocBlockSharedMem 4 2 = .ok body ∧
      (∃ sched, finished demoEnv body (run demoEnv body sched demoStart)) ∧
      (∀ sched,
        ((run demoEnv body sched demoStart).acc.m_vvuiSharedMem =
            (AccCpuOmp2Threads.ctor demoWorkDiv).m_vvuiSharedMem ∨
          (run demoEnv body sched demoStart).acc.m_vvuiSharedMem =
            (AccCpuOmp2Threads.ctor demoWorkDiv).m_vvuiSharedMem ++
              [demoEnv.alloc [(100, 20)] (2 * 4)]) ∧
        (finished demoEnv body (run demoEnv body sched demoStart) →
          (run demoEnv body sched demoStart).acc.m_vvuiSharedMem.length =
            (AccCpuOmp2Threads.ctor demoWorkDiv).m_vvuiSharedMem.length + 1)) ∧
      (∀ (s : BlockState 1) (i : Nat), i ≠ 0 →
        ((step demoEnv body i s).getD s).acc.m_vvuiSharedMem = s.acc.m_vvuiSharedMem) ∧
      (∀ s : BlockState 1, s.pc 0 = 1 →
        ((step demoEnv body 0 s).getD s).acc.m_vvuiSharedMem =
          s.acc.m_vvuiSharedMem ++ [demoEnv.alloc s.heap (2 * 4)]) ∧
      (∀ s : BlockState 1, s.pc 0 ≠ 1 →
        ((step demoEnv body 0 s).getD s).acc.m_vvuiSharedMem = s.acc.m_vvuiSharedMem) := by
  obtain ⟨body, hbody, hlive, hsched, hother, happend, -, hkeep⟩ :=
    allocBlockSharedMem_one_allocation demoEnv 4 2 (by decide) (by decide)
      (AccCpuOmp2Threads.ctor demoWorkDiv) [(100, 20)] (fun _ => 0)
  exact ⟨⟨by decide, by decide, rfl⟩, body, hbody, hlive rfl, hsched, hother,
    fun s hs => happend s hs rfl, hkeep⟩

/-- C3: in a block of `T` threads that runs a kernel body with two distinct call sites
`allocBlockSharedMem<T, count>()` of the same element type (`sizeofT > 0` bytes) and the same
`count`, with `operator new[]` returning fresh buffers: when `operator new[]` never throws, the
round-robin schedule runs every thread to the end, and there are two pointers `p1 ≠ p2`, the
buffers of `count * sizeofT` bytes at them not overlapping, such that under every schedule every
thread that has returned from both call sites has got `p1` from the one and `p2` from the
other. -/
theorem allocBlockSharedMem_distinct_sites {N : Nat} (env : Env N)
    (hfresh : FreshAlloc env.alloc) (prog : List (Instr N)) (hwf : WellFormed prog)
    (sizeofT count q1 q2 : Nat) (hsize : 0 < sizeofT) (hne : q1 ≠ q2)
    (h1 : CallSite prog q1 sizeofT count) (h2 : CallSite prog q2 sizeofT count)
    (acc : AccCpuOmp2Threads N) (heap : List (Nat × Nat)) (mem : Nat → Nat) :
    (NoBadAlloc env →
      finished env prog
        (run env prog (roundRobin env.T (2 * prog.length)) (BlockState.start acc heap mem))) ∧
      ∃ p1 p2, p1 ≠ p2 ∧
        (p1 + count * sizeofT ≤ p2 ∨ p2 + count * sizeofT ≤ p1) ∧
        ∀ sched, ∀ i < env.T,
          q1 < (run env prog sched (BlockState.start acc heap mem)).pc i →
          q2 < (run env prog sched (BlockState.start acc heap mem)).pc i →
          (run env prog sched (BlockState.start acc heap mem)).rets i q1 = some (.num p1) ∧
            (run env prog sched (BlockState.start acc heap mem)).rets i q2 = some (.num p2) := by
  refine ⟨fun hnew => roundRobin_finished env prog acc heap mem
    (allocOk_of_noBadAlloc env prog _ hnew), ?_⟩
  obtain ⟨hc, hq1, hr1, he1⟩ := callSite_get h1
  obtain ⟨-, hq2, hr2, he2⟩ := callSite_get h2
  have hpos : 0 < count * sizeofT := Nat.mul_pos hc hsize
  have hadj : ∀ a b, 3 ≤ a → a < b → prog[a]? = some Instr.returnBack →
      prog[b - 2]? = some (.emplaceBackIfMaster (count * sizeofT)) →
      prog[b]? = some Instr.returnBack → a + 1 < b := by
    intro a b ha hab hra heb hrb
    by_contra hcon
    have hb : b = a + 1 := by omega
    obtain ⟨bytes, -, hbar, -⟩ := hwf.1 b hrb
    have : b - 1 = a := by omega
    rw [this, hra] at hbar
    cases hbar
  refine ⟨env.alloc (masterState env prog (q1 - 2) (acc.m_vvuiSharedMem, heap)).2 (count * sizeofT),
    env.alloc (masterState env prog (q2 - 2) (acc.m_vvuiSharedMem, heap)).2 (count * sizeofT),
    ?_, ?_, ?_⟩
  · rcases Nat.lt_or_gt_of_ne hne with hlt | hlt
    · have := sites_disjoint env hfresh prog (acc.m_vvuiSharedMem, heap) q1 q2 _ (by omega)
        (hadj q1 q2 hq1 hlt hr1 he2 hr2) he1
      omega
    · have := sites_disjoint env hfresh prog (acc.m_vvuiSharedMem, heap) q2 q1 _ (by omega)
        (hadj q2 q1 hq2 hlt hr2 he1 hr1) he2
      omega
  · rcases Nat.lt_or_gt_of_ne hne with hlt | hlt
    · have := sites_disjoint env hfresh prog (acc.m_vvuiSharedMem, heap) q1 q2 _ (by omega)
        (hadj q1 q2 hq1 hlt hr1 he2 hr2) he1
      omega
    · have := sites_disjoint env hfresh prog (acc.m_vvuiSharedMem, heap) q2 q1 _ (by omega)
        (hadj q2 q1 hq2 hlt hr2 he1 hr1) he2
      omega
  · intro sched i hi hp1 hp2
    exact ⟨site_return env prog hwf q1 _ (by omega) hr1 he1 acc heap mem sched i hi hp1,
      site_return env prog hwf q2 _ (by omega) hr2 he2 acc heap mem sched i hi hp2⟩

/-- The theorem above at the two call sites of the demonstration kernel, a team of two threads
and the bump allocator on a free store that never runs out. -/
theorem allocBlockSharedMem_distinct_sites_witness :
    (FreshAlloc demoEnv.alloc ∧ WellFormed demoKernel ∧ 0 < 4 ∧ 3 ≠ 7 ∧
      CallSite demoKernel 3 4 2 ∧ CallSite demoKernel 7 4 2 ∧ NoBadAlloc demoEnv) ∧
    (finished demoEnv demoKernel
        (run demoEnv demoKernel (roundRobin demoEnv.T (2 * demoKernel.length)) demoStart) ∧
      ∃ p1 p2, p1 ≠ p2 ∧
        (p1 + 2 * 4 ≤ p2 ∨ p2 + 2 * 4 ≤ p1) ∧
        ∀ sched, ∀ i < demoEnv.T,
          3 < (run demoEnv demoKernel sched demoStart).pc i →
          7 < (run demoEnv demoKernel sched demoStart).pc i →
          (run demoEnv demoKernel sched demoStart).rets i 3 = some (.num p1) ∧
            (run demoEnv demoKernel sched demoStart).rets i 7 = some (.num p2)) :=
  have h := allocBlockSharedMem_distinct_sites demoEnv freshAlloc_bumpAlloc demoKernel
    wellFormed_demoKernel 4 2 3 7 (by decide) (by decide) callSite_demoKernel_first
    callSite_demoKernel_second (AccCpuOmp2Threads.ctor demoWorkDiv) [(100, 20)] (fun _ => 0)
  ⟨⟨freshAlloc_bumpAlloc, wellFormed_demoKernel, by decide, by decide,
      callSite_demoKernel_first, callSite_demoKernel_second, fun _ _ => rfl⟩,
    h.1 (fun _ _ => rfl), h.2⟩

/-- C4, as amended: `allocBlockSharedMem<T, count>()` is rejected by the `static_assert`, when
the kernel is built, if and only if `count = 0`; the check is a function of the template
arguments alone, no block state goes in or comes out, so nothing has run and no vector of
buffers has changed.  For every `count > 0` the call is accepted, its body being barrier,
allocation of `count * sizeof(T)` bytes by the thread with number 0, barrier, return.  In every
block of `T ≥ 1` threads: when `operator new[]` does not throw `std::bad_alloc` for the request,
some schedule runs every thread to the end with the new buffer returned to every thread, and
whenever the threads have run to the end, under any schedule, every thread has got that pointer,
no undefined behaviour has occurred and nothing has been thrown; when it throws, under every
schedule the threads do not run to the end, nothing is appended and no thread gets a pointer. -/
theorem allocBlockSharedMem_static_assert {N : Nat} (sizeofT count : Nat) :
    ((∃ msg, (allocBlockSharedMem sizeofT count : Except String (List (Instr N))) = .error msg) ↔
        count = 0) ∧
      (0 < count →
        (allocBlockSharedMem sizeofT count : Except String (List (Instr N))) =
            .ok [.barrier, .emplaceBackIfMaster (count * sizeofT), .barrier, .returnBack] ∧
          ∀ (env : Env N) (acc : AccCpuOmp2Threads N) (heap : List (Nat × Nat))
            (mem : Nat → Nat), 1 ≤ env.T →
            (env.bad_alloc heap (count * sizeofT) = false →
              (∃ sched,
                finished env [.barrier, .emplaceBackIfMaster (count * sizeofT), .barrier,
                    .returnBack]
                  (run env [.barrier, .emplaceBackIfMaster (count * sizeofT), .barrier,
                    .returnBack] sched (BlockState.start acc heap mem)) ∧
                ∀ i < env.T,
                  (run env [.barrier, .emplaceBackIfMaster (count * sizeofT), .barrier,
                    .returnBack] sched (BlockState.start acc heap mem)).rets i 3 =
                    some (.num (env.alloc heap (count * sizeofT)))) ∧
              ∀ sched,
                finished env [.barrier, .emplaceBackIfMaster (count * sizeofT), .barrier,
                    .returnBack]
                  (run env [.barrier, .emplaceBackIfMaster (count * sizeofT), .barrier,
                    .returnBack] sched (BlockState.start acc heap mem)) →
                (run env [.barrier, .emplaceBackIfMaster (count * sizeofT), .barrier,
                  .returnBack] sched (BlockState.start acc heap mem)).ub = false ∧
                (run env [.barrier, .emplaceBackIfMaster (count * sizeofT), .barrier,
                  .returnBack] sched (BlockState.start acc heap mem)).thrown = false ∧
                ∀ i < env.T,
                  (run env [.barrier, .emplaceBackIfMaster (count * sizeofT), .barrier,
                    .returnBack] sched (BlockState.start acc heap mem)).rets i 3 =
                    some (.num (env.alloc heap (count * sizeofT)))) ∧
            (env.bad_alloc heap (count * sizeofT) = true →
              ∀ sched,
                ¬ finished env [.barrier, .emplaceBackIfMaster (count * sizeofT), .barrier,
                    .returnBack]
                  (run env [.barrier, .emplaceBackIfMaster (count * sizeofT), .barrier,
                    .returnBack] sched (BlockState.start acc heap mem)) ∧
                (run env [.barrier, .emplaceBackIfMaster (count * sizeofT), .barrier,
                  .returnBack] sched (BlockState.start acc heap mem)).acc.m_vvuiSharedMem =
                  acc.m_vvuiSharedMem ∧
                ∀ i q,
                  (run env [.barrier, .emplaceBackIfMaster (count * sizeofT), .barrier,
                    .returnBack] sched (BlockState.start acc heap mem)).rets i q = none)) := by
  constructor
  · constructor
    · rintro ⟨msg, h⟩
      by_contra hc
      rw [allocBlockSharedMem_ok sizeofT count (Nat.pos_of_ne_zero hc)] at h
      cases h
    · intro h
      subst h
      exact ⟨_, rfl⟩
  · intro hc
    refine ⟨allocBlockSharedMem_ok sizeofT count hc, ?_⟩
    intro env acc heap mem hT
    have hall : ∀ sched,
        finished env [.barrier, .emplaceBackIfMaster (count * sizeofT), .barrier, .returnBack]
          (run env [.barrier, .emplaceBackIfMaster (count * sizeofT), .barrier, .returnBack]
            sched (BlockState.start acc heap mem)) →
        ∀ i < env.T,
          (run env [.barrier, .emplaceBackIfMaster (count * sizeofT), .barrier, .returnBack]
            sched (BlockState.start acc heap mem)).rets i 3 =
            some (.num (env.alloc heap (count * sizeofT))) := by
      intro sched hfin i hi
      obtain ⟨-, hr, -⟩ := single_site_run env (count * sizeofT) acc heap mem sched
      exact hr i hi (lt_of_lt_of_le (by simp) (hfin i hi))
    constructor
    · intro hnew
      have hok := allocOk_site (N := N) env (count * sizeofT) acc.m_vvuiSharedMem heap hnew
      refine ⟨⟨_, roundRobin_finished env _ acc heap mem hok,
        hall _ (roundRobin_finished env _ acc heap mem hok)⟩, ?_⟩
      intro sched hfin
      obtain ⟨hub, -, -⟩ := single_site_run env (count * sizeofT) acc heap mem sched
      exact ⟨hub, thrown_run env _ acc heap mem hok sched, hall sched hfin⟩
    · intro hbad sched
      exact site_bad_alloc env (count * sizeofT) acc heap mem hT hbad sched

/-- The theorem above at 0 elements (rejected) and at 2 elements of 4 bytes in a team of two
threads on a free store that never runs out (accepted, every thread gets the buffer at 120). -/
theorem allocBlockSharedMem_static_assert_witness :
    (∃ msg, (allocBlockSharedMem 4 0 : Except String (List (Instr 1))) = .error msg) ∧
    (0 < 2 ∧ 1 ≤ demoEnv.T ∧ demoEnv.bad_alloc [(100, 20)] (2 * 4) = false) ∧
    (allocBlockSharedMem 4 2 : Except String (List (Instr 1))) =
      .ok [.barrier, .emplaceBackIfMaster (2 * 4), .barrier, .returnBack] ∧
    (∃ sched,
      finished demoEnv [.barrier, .emplaceBackIfMaster (2 * 4), .barrier, .returnBack]
        (run demoEnv [.barrier, .emplaceBackIfMaster (2 * 4), .barrier, .returnBack] sched
          demoStart) ∧
      ∀ i < demoEnv.T,
        (run demoEnv [.barrier, .emplaceBackIfMaster (2 * 4), .barrier, .returnBack] sched
          demoStart).rets i 3 = some (.num (demoEnv.alloc [(100, 20)] (2 * 4)))) ∧
    demoEnv.alloc [(100, 20)] (2 * 4) = 120 :=
  have h := (allocBlockSharedMem_static_assert (N := 1) 4 2).2 (by decide)
  ⟨(allocBlockSharedMem_static_assert 4 0).1.2 rfl, ⟨by decide, by decide, rfl⟩, h.1,
    ((h.2 demoEnv (AccCpuOmp2Threads.ctor demoWorkDiv) [(100, 20)] (fun _ => 0)
      (by decide)).1 rfl).1, by decide⟩

/-- The claim C4 as it was stated fails where `operator new[]` throws: `2 ^ 45` elements of 8
bytes on a free store of `2 ^ 40` bytes.  The call is accepted (`count > 0`), but under no
schedule does every thread of the team of two get a pointer: no thread ever gets one, the
threads never run to the end, and once the thread with number 0 has reached the allocation
`std::bad_alloc` has been thrown and nothing has been appended. -/
theorem allocBlockSharedMem_bad_alloc_counterexample :
    0 < 2 ^ 45 ∧
    (allocBlockSharedMem 8 (2 ^ 45) : Except String (List (Instr 1))) =
      .ok [.barrier, .emplaceBackIfMaster (2 ^ 45 * 8), .barrier, .returnBack] ∧
    ¬ (∃ sched, ∀ i < smallStoreEnv.T, ∃ p,
      (run smallStoreEnv [.barrier, .emplaceBackIfMaster (2 ^ 45 * 8), .barrier, .returnBack]
        sched demoStart).rets i 3 = some (.num p)) ∧
    (∀ sched,
      ¬ finished smallStoreEnv
        [.barrier, .emplaceBackIfMaster (2 ^ 45 * 8), .barrier, .returnBack]
        (run smallStoreEnv [.barrier, .emplaceBackIfMaster (2 ^ 45 * 8), .barrier, .returnBack]
          sched demoStart)) ∧
    (run smallStoreEnv [.barrier, .emplaceBackIfMaster (2 ^ 45 * 8), .barrier, .returnBack]
      [0, 1, 0, 0] demoStart).thrown = true ∧
    (run smallStoreEnv [.barrier, .emplaceBackIfMaster (2 ^ 45 * 8), .barrier, .returnBack]
      [0, 1, 0, 0] demoStart).acc.m_vvuiSharedMem = [] := by
  have hbad : smallStoreEnv.bad_alloc [(100, 20)] (2 ^ 45 * 8) = true := by decide
  have hT : 1 ≤ smallStoreEnv.T := by decide
  refine ⟨by decide, rfl, ?_, ?_, by decide, by decide⟩
  · rintro ⟨sched, h⟩
    obtain ⟨p, hp⟩ := h 0 (by decide)
    have := (site_bad_alloc smallStoreEnv (2 ^ 45 * 8) (AccCpuOmp2Threads.ctor demoWorkDiv)
      [(100, 20)] (fun _ => 0) hT hbad sched).2.2 0 3
    rw [show demoStart = BlockState.start (AccCpuOmp2Threads.ctor demoWorkDiv) [(100, 20)]
      (fun _ => 0) from rfl] at hp
    rw [this] at hp
    cases hp
  · intro sched
    exact (site_bad_alloc smallStoreEnv (2 ^ 45 * 8) (AccCpuOmp2Threads.ctor demoWorkDiv)
      [(100, 20)] (fun _ => 0) hT hbad sched).1

/-- C5: for every dimensionality `N`, every device argument and every state of the OpenMP
runtime, `getAccDevProps` is a total function and returns: multi-processor count 1, maximal number
of threads per block `m`, maximal block extent the vector with every component `m`, maximal grid
extent the vector with every component `2 ^ w - 1`, the largest value of the `w`-bit unsigned
component type.  In an integration-test build `m = 4`; otherwise `m` is the result of
`omp_get_max_threads()` after `omp_set_num_threads(1024)`, converted to `UInt` (the very value
when it is non-negative and below `2 ^ w`).  The result does not depend on the device. -/
theorem getAccDevProps_values {N : Nat} {DevCpu σ : Type} (w : Nat) (omp : OmpRuntime σ)
    (dev : DevCpu) (rt : σ) :
    ((getAccDevProps true w omp dev rt).1 : AccDevProps N) =
        { m_uiMultiProcessorCount := 1
          m_uiBlockThreadsCountMax := 4
          m_vuiBlockThreadExtentsMax := fun _ => 4
          m_vuiGridBlockExtentsMax := fun _ => 2 ^ w - 1 } ∧
      ((getAccDevProps false w omp dev rt).1 : AccDevProps N) =
        { m_uiMultiProcessorCount := 1
          m_uiBlockThreadsCountMax :=
            toUInt w (omp.omp_get_max_threads (omp.omp_set_num_threads 1024 rt))
          m_vuiBlockThreadExtentsMax := fun _ =>
            toUInt w (omp.omp_get_max_threads (omp.omp_set_num_threads 1024 rt))
          m_vuiGridBlockExtentsMax := fun _ => 2 ^ w - 1 } ∧
      (0 ≤ omp.omp_get_max_threads (omp.omp_set_num_threads 1024 rt) →
        omp.omp_get_max_threads (omp.omp_set_num_threads 1024 rt) < 2 ^ w →
        (toUInt w (omp.omp_get_max_threads (omp.omp_set_num_threads 1024 rt)) : Int) =
          omp.omp_get_max_threads (omp.omp_set_num_threads 1024 rt)) ∧
      (∀ (integrationTest : Bool) (k : Fin N),
        ((getAccDevProps integrationTest w omp dev rt).1 : AccDevProps N).m_vuiGridBlockExtentsMax k
            < 2 ^ w ∧
          ∀ x, x < 2 ^ w → x ≤ ((getAccDevProps integrationTest w omp dev rt).1 :
            AccDevProps N).m_vuiGridBlockExtentsMax k) ∧
      ∀ (integrationTest : Bool) (dev' : DevCpu),
        (getAccDevProps integrationTest w omp dev' rt : AccDevProps N × σ) =
          getAccDevProps integrationTest w omp dev rt := by
  refine ⟨rfl, rfl, ?_, ?_, fun _ _ => rfl⟩
  · intro h0 hlt
    simp only [toUInt]
    rw [Int.emod_eq_of_lt h0 (by exact_mod_cast hlt)]
    exact Int.toNat_of_nonneg h0
  · intro it k
    have hpos : 0 < 2 ^ w := Nat.two_pow_pos w
    simp only [getAccDevProps, Vec.all]
    constructor
    · omega
    · intro x hx
      omega

/-- The theorem above at two dimensions, 64 bits and a runtime that caps teams at 8 threads. -/
theorem getAccDevProps_values_witness :
    (0 : Int) ≤ demoOmp.omp_get_max_threads (demoOmp.omp_set_num_threads 1024 0) ∧
      demoOmp.omp_get_max_threads (demoOmp.omp_set_num_threads 1024 0) < 2 ^ 64 ∧
      (toUInt 64 (demoOmp.omp_get_max_threads (demoOmp.omp_set_num_threads 1024 0)) : Int) =
        demoOmp.omp_get_max_threads (demoOmp.omp_set_num_threads 1024 0) ∧
      ((getAccDevProps false 64 demoOmp () 0).1 : AccDevProps 2).m_uiBlockThreadsCountMax = 8 :=
  have h0 : (0 : Int) ≤ demoOmp.omp_get_max_threads (demoOmp.omp_set_num_threads 1024 0) := by
    decide
  have h1 : demoOmp.omp_get_max_threads (demoOmp.omp_set_num_threads 1024 0) < 2 ^ 64 := by
    decide
  ⟨h0, h1, (getAccDevProps_values (N := 2) 64 demoOmp () 0).2.2.1 h0 h1, by decide⟩

/-- C6: for every accelerator state and every thread, the four queries return a value, and
`getIdx<Grid, Threads>()` is `getIdx<Grid, Blocks>()` times `getWorkDiv<Block, Threads>()` plus
`getIdx<Block, Threads>()` in the arithmetic of `Vec<TDim>`, in every component.  For a work
division with all extents at least 1, the block index below the grid extent, the thread index
below the block extent and the extent of the grid in threads representable in `w` bits, the
equation holds in every component without any reduction modulo `2 ^ w`. -/
theorem getIdx_composition {N : Nat} (w : Nat) (tidx : Nat → Vec N) (acc : AccCpuOmp2Threads N)
    (tid : Nat) :
    ∃ gt gb bt tb,
      acc.getIdx w tidx .Grid .Threads tid = some gt ∧
      acc.getIdx w tidx .Grid .Blocks tid = some gb ∧
      acc.getWorkDiv w .Block .Threads = some bt ∧
      acc.getIdx w tidx .Block .Threads tid = some tb ∧
      gt = Vec.add w (Vec.mul w gb bt) tb ∧
      (∀ k : Fin N, gt k = ((gb k * bt k) % 2 ^ w + tb k) % 2 ^ w) ∧
      ((∀ k : Fin N, 1 ≤ acc.workDiv.gridBlockExtent k ∧ 1 ≤ bt k ∧
          gb k < acc.workDiv.gridBlockExtent k ∧ tb k < bt k ∧
          acc.workDiv.gridBlockExtent k * bt k < 2 ^ w) →
        ∀ k : Fin N, gt k = gb k * bt k + tb k) := by
  refine ⟨_, _, _, _, rfl, rfl, rfl, rfl, rfl, fun _ => rfl, ?_⟩
  intro h k
  obtain ⟨-, -, h3, h4, h5⟩ := h k
  have h6 : (acc.m_vuiGridBlockIdx k + 1) * acc.workDiv.blockThreadExtent k ≤
      acc.workDiv.gridBlockExtent k * acc.workDiv.blockThreadExtent k :=
    Nat.mul_le_mul_right _ h3
  have h7 : acc.m_vuiGridBlockIdx k * acc.workDiv.blockThreadExtent k + tidx tid k < 2 ^ w := by
    have : (acc.m_vuiGridBlockIdx k + 1) * acc.workDiv.blockThreadExtent k =
        acc.m_vuiGridBlockIdx k * acc.workDiv.blockThreadExtent k +
          acc.workDiv.blockThreadExtent k := by ring
    omega
  have h8 : acc.m_vuiGridBlockIdx k * acc.workDiv.blockThreadExtent k < 2 ^ w := by omega
  show (acc.m_vuiGridBlockIdx k * acc.workDiv.blockThreadExtent k % 2 ^ w + tidx tid k) % 2 ^ w = _
  rw [Nat.mod_eq_of_lt h8, Nat.mod_eq_of_lt h7]

/-- The theorem above at thread 1 of block 2 of the demonstration work division: grid thread
index `2 * 2 + 1 = 5`. -/
theorem getIdx_composition_witness :
    (∀ k : Fin 1, 1 ≤ demoWorkDiv.gridBlockExtent k ∧ 1 ≤ demoWorkDiv.blockThreadExtent k ∧
        (2 : Nat) < demoWorkDiv.gridBlockExtent k ∧ (1 : Nat) < demoWorkDiv.blockThreadExtent k ∧
        demoWorkDiv.gridBlockExtent k * demoWorkDiv.blockThreadExtent k < 2 ^ 64) ∧
      ∃ gt, demoAcc.getIdx 64 demoEnv.tidx .Grid .Threads 1 = some gt ∧ ∀ k : Fin 1, gt k = 5 := by
  have hv : ∀ k : Fin 1, 1 ≤ demoWorkDiv.gridBlockExtent k ∧
      1 ≤ demoWorkDiv.blockThreadExtent k ∧
      (2 : Nat) < demoWorkDiv.gridBlockExtent k ∧ (1 : Nat) < demoWorkDiv.blockThreadExtent k ∧
      demoWorkDiv.gridBlockExtent k * demoWorkDiv.blockThreadExtent k < 2 ^ 64 := by decide
  refine ⟨hv, ?_⟩
  obtain ⟨gt, gb, bt, tb, hgt, hgb, hbt, htb, -, -, hexact⟩ :=
    getIdx_composition 64 demoEnv.tidx demoAcc 1
  cases hgb
  cases hbt
  cases htb
  exact ⟨gt, hgt, fun k => hexact hv k⟩

/-- C7: `syncBlockThreads()` is a full barrier.  In a block of `T` threads that runs any kernel
body with a call of `syncBlockThreads()` at position `pre.length` (for every thread its `k`-th
call, `k - 1` being the number of barriers in `pre`), under every schedule no thread has returned
from that call before every thread of the block has entered it: whenever a thread is past the
call, every thread is past it or inside it.  In the kernel where every thread sets
`flags[tid] = 1`, calls the barrier and reads the sum of the `T` flags, the round-robin schedule
runs every thread to the end, and under every schedule every thread that has read the sum has
read `T`.  (`#pragma omp barrier` has the meaning the OpenMP specification gives it for the team;
the steps of the threads interleave and memory is sequentially consistent.) -/
theorem syncBlockThreads_full_barrier {N : Nat} (env : Env N) (acc : AccCpuOmp2Threads N)
    (heap : List (Nat × Nat)) (mem : Nat → Nat) :
    (∀ (pre post : List (Instr N)) (sched : List Nat), ∀ i < env.T, ∀ j < env.T,
        pre.length < (run env (pre ++ syncBlockThreads ++ post) sched
          (BlockState.start acc heap mem)).pc i →
        pre.length < (run env (pre ++ syncBlockThreads ++ post) sched
            (BlockState.start acc heap mem)).pc j ∨
          ((run env (pre ++ syncBlockThreads ++ post) sched
              (BlockState.start acc heap mem)).pc j = pre.length ∧
            (run env (pre ++ syncBlockThreads ++ post) sched
              (BlockState.start acc heap mem)).inBarrier j = true)) ∧
    (∀ flags : Nat,
      finished env (flagsKernel flags env.T)
        (run env (flagsKernel flags env.T) (roundRobin env.T 6)
          (BlockState.start acc heap mem)) ∧
      ∀ sched, ∀ i < env.T,
        2 < (run env (flagsKernel flags env.T) sched (BlockState.start acc heap mem)).pc i →
        (run env (flagsKernel flags env.T) sched (BlockState.start acc heap mem)).rets i 2 =
          some (.num env.T)) := by
  constructor
  · intro pre post sched i hi j hj hlt
    refine barrierInv_run env _ acc heap mem sched i hi j hj pre.length hlt ?_
    rw [List.append_assoc, List.getElem?_append_right (le_refl _)]
    simp [syncBlockThreads]
  · intro flags
    refine ⟨roundRobin_finished env (flagsKernel flags env.T) acc heap mem
      (allocOk_flagsKernel env flags env.T _), ?_⟩
    intro sched
    have key := run_induction
      (fun s => BarrierInv env (flagsKernel flags env.T) s ∧ FlagsInv env flags s ∧
        FlagsRets env s)
      (fun s i s' hinv h =>
        ⟨barrierInv_step hinv.1 h, flags_step hinv.1 hinv.2.1 hinv.2.2 h⟩)
      sched (BlockState.start acc heap mem)
      ⟨(inv_start env _ acc heap mem).1, by intro j _ h; simp [BlockState.start] at h,
        by intro j _ h; simp [BlockState.start] at h⟩
    exact key.2.2

/-- The theorem above at a team of two threads: thread 1 reads the sum 2; and with thread 0 past
the barrier at position 0, thread 1 is inside that barrier. -/
theorem syncBlockThreads_full_barrier_witness :
    (1 < demoEnv.T ∧
      2 < (run demoEnv (flagsKernel 50 demoEnv.T) (roundRobin 2 6) demoStart).pc 1) ∧
      (run demoEnv (flagsKernel 50 demoEnv.T) (roundRobin 2 6) demoStart).rets 1 2 =
        some (.num demoEnv.T) ∧
      ((0 < demoEnv.T ∧
        0 < (run demoEnv ([] ++ syncBlockThreads ++ [.returnBack]) [0, 1, 0] demoStart).pc 0) ∧
        (0 < (run demoEnv ([] ++ syncBlockThreads ++ [.returnBack]) [0, 1, 0] demoStart).pc 1 ∨
          (run demoEnv ([] ++ syncBlockThreads ++ [.returnBack]) [0, 1, 0] demoStart).pc 1 = 0 ∧
            (run demoEnv ([] ++ syncBlockThreads ++ [.returnBack]) [0, 1, 0]
              demoStart).inBarrier 1 = true)) :=
  have h := syncBlockThreads_full_barrier demoEnv (AccCpuOmp2Threads.ctor demoWorkDiv)
    [(100, 20)] (fun _ => 0)
  have h1 : 1 < demoEnv.T := by decide
  have h2 : 2 < (run demoEnv (flagsKernel 50 demoEnv.T) (roundRobin 2 6) demoStart).pc 1 := by
    decide
  have h3 : 0 < demoEnv.T := by decide
  have h4 : 0 < (run demoEnv ([] ++ syncBlockThreads ++ [.returnBack]) [0, 1, 0] demoStart).pc 0 :=
    by decide
  ⟨⟨h1, h2⟩, (h.2 50).2 (roundRobin 2 6) 1 h1 h2,
    ⟨h3, h4⟩, h.1 [] [.returnBack] [0, 1, 0] 0 h3 1 h1 h4⟩

/-- C8: for every operation `op`, every address and every value, the member `atomicOp` returns
the value that was stored at the address just before the operation, leaves `op old value` at the
address and every other address as it was; it is the result of `atomic::atomicOp` of whatever
atomic provider the accelerator has as its base, on the same address and value; and as a
statement of a kernel thread it is one step that returns to the thread the value stored at the
address in the state before the step. -/
theorem atomicOp_returns_old {N : Nat} (op : Nat → Nat → Nat) (mem : Nat → Nat)
    (addr value : Nat) :
    (AccCpuOmp2Threads.atomicOp (fun f => atomic.atomicOp f) op mem addr value).1 = mem addr ∧
      (AccCpuOmp2Threads.atomicOp (fun f => atomic.atomicOp f) op mem addr value).2 addr =
        op (mem addr) value ∧
      (∀ a, a ≠ addr →
        (AccCpuOmp2Threads.atomicOp (fun f => atomic.atomicOp f) op mem addr value).2 a = mem a) ∧
      (∀ (Op : Type) (provider : Op → (Nat → Nat) → Nat → Nat → Nat × (Nat → Nat)) (o : Op),
        AccCpuOmp2Threads.atomicOp provider o mem addr value = provider o mem addr value) ∧
      ∀ (env : Env N) (i : Nat) (s : BlockState N),
        ∃ s', exec env (.atomicOp op addr value) i s = some s' ∧
          s'.rets i (s.pc i) = some (.num (s.mem addr)) ∧
          s'.mem addr = op (s.mem addr) value := by
  refine ⟨rfl, ?_, ?_, fun _ _ _ => rfl, ?_⟩
  · simp [AccCpuOmp2Threads.atomicOp, atomic.atomicOp]
  · intro a ha
    simp [AccCpuOmp2Threads.atomicOp, atomic.atomicOp, Function.update_noteq ha]
  · intro env i s
    refine ⟨_, rfl, ?_, ?_⟩
    · simp [BlockState.ret, AccCpuOmp2Threads.atomicOp, atomic.atomicOp]
    · simp [BlockState.ret, AccCpuOmp2Threads.atomicOp, atomic.atomicOp]

/-- The theorem above at an atomic addition of 2 to the address 3 of a memory full of fives. -/
theorem atomicOp_returns_old_witness :
    (AccCpuOmp2Threads.atomicOp (fun f => atomic.atomicOp f) (fun a b => a + b) (fun _ => 5) 3
        2).1 = 5 ∧
      (7 ≠ 3 ∧
        (AccCpuOmp2Threads.atomicOp (fun f => atomic.atomicOp f) (fun a b => a + b) (fun _ => 5) 3
          2).2 7 = 5) :=
  have h := atomicOp_returns_old (N := 1) (fun a b => a + b) (fun _ => 5) 3 2
  ⟨h.1, by decide, h.2.2.1 7 (by decide)⟩

/-- C9: right after construction the vector of buffers `m_vvuiSharedMem` is empty and the
current block index is the zero vector.  Every statement a kernel thread can execute (every
kernel-facing operation) and every run of a block under any schedule leaves the vector of buffers
before as a prefix of the vector after: the entries present stay, in their order, and the length
never decreases. -/
theorem arena_append_only {N : Nat} :
    (∀ wd : BasicWorkDiv N,
      (AccCpuOmp2Threads.ctor wd).m_vvuiSharedMem = [] ∧
      (AccCpuOmp2Threads.ctor wd).m_vuiGridBlockIdx = Vec.zeros ∧
      ∀ k : Fin N, (AccCpuOmp2Threads.ctor wd).m_vuiGridBlockIdx k = 0) ∧
    (∀ (env : Env N) (ins : Instr N) (i : Nat) (s : BlockState N),
      s.acc.m_vvuiSharedMem <+: ((exec env ins i s).getD s).acc.m_vvuiSharedMem) ∧
    (∀ (env : Env N) (prog : List (Instr N)) (sched : List Nat) (s : BlockState N),
      s.acc.m_vvuiSharedMem <+: (run env prog sched s).acc.m_vvuiSharedMem ∧
      s.acc.m_vvuiSharedMem.length ≤ (run env prog sched s).acc.m_vvuiSharedMem.length ∧
      (run env prog sched s).acc.m_vvuiSharedMem.take s.acc.m_vvuiSharedMem.length =
        s.acc.m_vvuiSharedMem) := by
  refine ⟨fun wd => ⟨rfl, rfl, fun _ => rfl⟩, exec_arena_grows, ?_⟩
  intro env prog sched s
  have hp := run_arena_grows env prog sched s
  exact ⟨hp, hp.length_le, (List.prefix_iff_eq_take.mp hp).symm⟩

/-- C10: for every dimensionality `N`, `getAccName` returns exactly the string
`AccCpuOmp2Threads<` followed by the decimal representation of `N` (read as a decimal number it
is `N`) followed by `>`; accelerators of two different dimensionalities have different names. -/
theorem getAccName_value (N : Nat) :
    getAccName N = "AccCpuOmp2Threads<" ++ to_string N ++ ">" ∧
      decimalValue (to_string N) = N ∧
      Function.Injective getAccName := by
  refine ⟨rfl, decimalValue_to_string N, ?_⟩
  intro M K heq
  have h1 := congrArg String.data heq
  simp only [getAccName, String.data_append] at h1
  have h2 := List.append_cancel_left (List.append_cancel_right h1)
  have h3 : to_string M = to_string K := String.ext h2
  rw [← decimalValue_to_string M, ← decimalValue_to_string K, h3]

/-- The names of the accelerators of dimensionalities 1, 3 and 12. -/
theorem getAccName_examples :
    getAccName 1 = "AccCpuOmp2Threads<1>" ∧ getAccName 3 = "AccCpuOmp2Threads<3>" ∧
      getAccName 12 = "AccCpuOmp2Threads<12>" := by
  decide

/-- C11: for every accelerator and every 32-bit value `val`, the kernel
`KernelWithConstructorAndMember` constructed with `val` and called with the success flag true
leaves the flag true if and only if `val = 42`; the member the kernel body reads is the value
given to the constructor.  The kernel constructed with 42 and the kernel constructed without an
argument (default 42) both leave the flag true.  `ALPAKA_CHECK(success, expression)` is any macro
that leaves in the flag the conjunction of the flag before and the expression. -/
theorem kernelWithConstructorAndMember_success {TAcc : Type}
    (ALPAKA_CHECK : Bool → Bool → Bool)
    (hcheck : ∀ success expression, ALPAKA_CHECK success expression = (success && expression))
    (acc : TAcc) :
    (∀ val : Int32,
      ((KernelWithConstructorAndMember.ctor (some val)).call ALPAKA_CHECK acc true = true ↔
        val.1 = 42) ∧
      (KernelWithConstructorAndMember.ctor (some val)).m_val = val) ∧
    (KernelWithConstructorAndMember.ctor (some ⟨42, by decide⟩)).call ALPAKA_CHECK acc true =
      true ∧
    (KernelWithConstructorAndMember.ctor none).call ALPAKA_CHECK acc true = true ∧
    (KernelWithConstructorAndMember.ctor none).m_val.1 = 42 := by
  refine ⟨fun val => ⟨?_, rfl⟩, ?_, ?_, rfl⟩
  · simp only [KernelWithConstructorAndMember.call, KernelWithConstructorAndMember.ctor, hcheck,
      Option.getD_some, Bool.true_and, decide_eq_true_eq]
    exact eq_comm
  · simp [KernelWithConstructorAndMember.call, KernelWithConstructorAndMember.ctor, hcheck]
  · simp [KernelWithConstructorAndMember.call, KernelWithConstructorAndMember.ctor, hcheck]

/-- The theorem above at the check macro that clears the flag when the expression is false: the
kernel constructed with 7 fails, the kernels constructed with 42 and without an argument
succeed. -/
theorem kernelWithConstructorAndMember_success_witness :
    (∀ success expression, demoCheck success expression = (success && expression)) ∧
    ((KernelWithConstructorAndMember.ctor (some ⟨7, by decide⟩)).call demoCheck () true = true ↔
      (7 : Int) = 42) ∧
    (KernelWithConstructorAndMember.ctor (some ⟨7, by decide⟩)).call demoCheck () true = false ∧
    (KernelWithConstructorAndMember.ctor (some ⟨42, by decide⟩)).call demoCheck () true = true ∧
    (KernelWithConstructorAndMember.ctor none).call demoCheck () true = true :=
  have hc : ∀ success expression, demoCheck success expression = (success && expression) := by
    decide
  have h := kernelWithConstructorAndMember_success demoCheck hc ()
  ⟨hc, (h.1 ⟨7, by decide⟩).1, by decide, h.2.1, h.2.2.1⟩

/-- C12: the queries `getWorkDiv<Origin, Unit>()`, `getIdx<Origin, Unit>()` and
`getBlockSharedExternMem<T>()` have no side effects.  In every state of a block, the call by any
thread is one step that returns the value of the member function and leaves the accelerator
object as it is (the stored work division, the current block index, the vector of buffers and
the external shared memory), and with it the free store, the memory and the undefined-behaviour
flag.  The result of `getWorkDiv` is `workdiv::getWorkDiv` of the stored work division, the same
for two accelerators with the same work division; `getBlockSharedExternMem` returns the address
of the externally bound buffer. -/
theorem queries_no_side_effects {N : Nat} (env : Env N) (i : Nat) (s : BlockState N)
    (o : Origin) (u : UnitTag) :
    (∃ s', exec env (.getWorkDiv o u) i s = some s' ∧
      s'.rets i (s.pc i) = some (.vec (s.acc.getWorkDiv env.w o u)) ∧
      s'.acc = s.acc ∧ s'.acc.workDiv = s.acc.workDiv ∧
      s'.acc.m_vuiGridBlockIdx = s.acc.m_vuiGridBlockIdx ∧
      s'.acc.m_vvuiSharedMem = s.acc.m_vvuiSharedMem ∧
      s'.acc.m_vuiExternalSharedMem = s.acc.m_vuiExternalSharedMem ∧
      s'.heap = s.heap ∧ s'.mem = s.mem ∧ s'.ub = s.ub) ∧
    (∃ s', exec env (.getIdx o u) i s = some s' ∧
      s'.rets i (s.pc i) = some (.vec (s.acc.getIdx env.w env.tidx o u i)) ∧
      s'.acc = s.acc ∧ s'.acc.workDiv = s.acc.workDiv ∧
      s'.acc.m_vuiGridBlockIdx = s.acc.m_vuiGridBlockIdx ∧
      s'.acc.m_vvuiSharedMem = s.acc.m_vvuiSharedMem ∧
      s'.acc.m_vuiExternalSharedMem = s.acc.m_vuiExternalSharedMem ∧
      s'.heap = s.heap ∧ s'.mem = s.mem ∧ s'.ub = s.ub) ∧
    (∃ s', exec env .getBlockSharedExternMem i s = some s' ∧
      s'.rets i (s.pc i) = some (.num s.acc.getBlockSharedExternMem) ∧
      s'.acc = s.acc ∧ s'.acc.workDiv = s.acc.workDiv ∧
      s'.acc.m_vuiGridBlockIdx = s.acc.m_vuiGridBlockIdx ∧
      s'.acc.m_vvuiSharedMem = s.acc.m_vvuiSharedMem ∧
      s'.acc.m_vuiExternalSharedMem = s.acc.m_vuiExternalSharedMem ∧
      s'.heap = s.heap ∧ s'.mem = s.mem ∧ s'.ub = s.ub) ∧
    (∀ acc : AccCpuOmp2Threads N,
      acc.getWorkDiv env.w o u = workdiv.getWorkDiv env.w o u acc.workDiv) ∧
    (∀ acc acc' : AccCpuOmp2Threads N, acc.workDiv = acc'.workDiv →
      acc.getWorkDiv env.w o u = acc'.getWorkDiv env.w o u) ∧
    (∀ (acc : AccCpuOmp2Threads N) (p : Nat), acc.m_vuiExternalSharedMem = some p →
      acc.getBlockSharedExternMem = p) := by
  refine ⟨⟨_, rfl, ?_, rfl, rfl, rfl, rfl, rfl, rfl, rfl, rfl⟩,
    ⟨_, rfl, ?_, rfl, rfl, rfl, rfl, rfl, rfl, rfl, rfl⟩,
    ⟨_, rfl, ?_, rfl, rfl, rfl, rfl, rfl, rfl, rfl, rfl⟩, fun _ => rfl, ?_, ?_⟩
  · simp [BlockState.ret]
  · simp [BlockState.ret]
  · simp [BlockState.ret]
  · intro acc acc' h
    simp only [AccCpuOmp2Threads.getWorkDiv, h]
  · intro acc p h
    simp [AccCpuOmp2Threads.getBlockSharedExternMem, h]

/-- The theorem above at two accelerators with the demonstration work division, one of them with
the external shared memory bound to the buffer at address 4096. -/
theorem queries_no_side_effects_witness :
    (demoAcc.workDiv = demoAccExtern.workDiv ∧
      demoAccExtern.m_vuiExternalSharedMem = some 4096) ∧
    demoAcc.getWorkDiv demoEnv.w .Grid .Threads =
      demoAccExtern.getWorkDiv demoEnv.w .Grid .Threads ∧
    demoAccExtern.getBlockSharedExternMem = 4096 :=
  have h := queries_no_side_effects demoEnv 0 demoStart .Grid .Threads
  ⟨⟨rfl, rfl⟩, h.2.2.2.2.1 demoAcc demoAccExtern rfl, h.2.2.2.2.2 demoAccExtern 4096 rfl⟩

end Alpaka
